import Mathlib

/-!
Verification of the deco-cx/realtime volume actor against its specification.

The development shallowly embeds the TypeScript sources:
  * `src/bit.ts`          — the `BinaryIndexedTree` class (Fenwick tree);
  * `src/crdt/text.ts`    — `applyPatch`, `apply`, `diff`, `shrinkOperations`;
  * `src/realtime.ts`     — MemFS, DurableFS, TieredFS, and the PATCH handler
                            of the `Realtime` durable object;
  * `src/mutex.ts`        — the `dedupe` pre-pass of the file locker.

JavaScript strings are modelled as `List Char` (code-unit indexed sequences),
JavaScript numbers arising from BIT queries as `Option Int` (`none` plays the
role of `NaN`, produced by reading past the end of the backing array), and the
key/value storage of the durable object as total functions into `Option`.
-/

namespace RealtimeSpec

/-- Character sequences stand for JavaScript strings (code-unit indexed). -/
abbrev Str := List Char

/-! ## Binary Indexed Tree (`src/bit.ts`)

```ts
export class BinaryIndexedTree {
  bit: number[];
  constructor(size: number) { this.bit = new Array(size + 1).fill(0); }
  update(idx: number, delta: number): void {
    idx++;
    while (idx < this.bit.length) { this.bit[idx] += delta; idx += idx & -idx; }
  }
  query(r: number): number {
    r++;
    let ret = 0;
    while (r > 0) { ret += this.bit[r]; r -= r & -r; }
    return ret;
  }
  rangeQuery(left: number, right: number): number {
    return this.query(right) - this.query(left - 1);
  }
}
```
-/

/-- Fueled lowest-set-bit: models the JS expression `i & -i` (two's complement)
for a non-negative 32-bit integer.  `lowbitAux n n` computes the exact lowest
set bit of `n` since the argument halves at every step. -/
def lowbitAux : Nat → Nat → Nat
  | 0, _ => 0
  | f + 1, n => if n % 2 = 1 then 1 else if n = 0 then 0 else 2 * lowbitAux f (n / 2)

/-- `lowbit n` models `n & -n`, the lowest set bit of `n`. -/
def lowbit (n : Nat) : Nat := lowbitAux n n

theorem lowbitAux_pos : ∀ f n, 0 < n → n ≤ f → 0 < lowbitAux f n := by
  intro f
  induction f with
  | zero => intro n h1 h2 ; omega
  | succ f ih =>
    intro n h1 h2
    unfold lowbitAux
    by_cases h : n % 2 = 1
    · simp [h]
    · have hn0 : n ≠ 0 := by omega
      have : 0 < lowbitAux f (n / 2) := by
        apply ih <;> omega
      simp [h, hn0]
      omega

theorem lowbit_pos {n : Nat} (h : 0 < n) : 0 < lowbit n :=
  lowbitAux_pos n n h (Nat.le_refl n)

/-- The Fenwick tree: a backing array of `size + 1` integers. -/
structure BinaryIndexedTree where
  bit : List Int
  deriving Repr, DecidableEq

namespace BinaryIndexedTree

/-- `new BinaryIndexedTree(size)`. -/
def make (size : Nat) : BinaryIndexedTree := ⟨List.replicate (size + 1) 0⟩

/-- The `while (idx < this.bit.length)` loop of `update`, with explicit fuel.
The loop index strictly increases, so `bit.length` steps always suffice. -/
def updateAux : Nat → List Int → Nat → Int → List Int
  | 0, bit, _, _ => bit
  | f + 1, bit, idx, delta =>
    if idx < bit.length then
      updateAux f (bit.set idx (bit.getD idx 0 + delta)) (idx + lowbit idx) delta
    else
      bit

/-- `update(idx, delta)`: point add at 0-based index `idx`. -/
def update (t : BinaryIndexedTree) (idx : Nat) (delta : Int) : BinaryIndexedTree :=
  ⟨updateAux t.bit.length t.bit (idx + 1) delta⟩

/-- The `while (r > 0)` loop of `query`, with explicit fuel.  All array reads
are in range at call sites (the wrapper checks the initial index). -/
def queryAux : Nat → List Int → Nat → Int
  | 0, _, _ => 0
  | f + 1, bit, r =>
    if r = 0 then 0 else bit.getD r 0 + queryAux f bit (r - lowbit r)

/-- `query(r)`: prefix sum over `[0, r]`.  Reading `bit[r+1]` past the end of
the array yields `undefined` in JS, turning the sum into `NaN`; that case is
modelled as `none`.  Once the initial index is in range every later index is
smaller, hence also in range. -/
def query (t : BinaryIndexedTree) (r : Nat) : Option Int :=
  if r + 1 < t.bit.length then some (queryAux t.bit.length t.bit (r + 1)) else none

/-- `query` extended to the `r = -1` call made by `rangeQuery(0, _)`: the JS
loop body never runs for `r + 1 = 0`, so the result is `0` (not `NaN`). -/
def queryI (t : BinaryIndexedTree) (r : Int) : Option Int :=
  if r < 0 then some 0 else t.query r.toNat

/-- JS addition/subtraction with `NaN` propagation. -/
def nanAdd : Option Int → Option Int → Option Int
  | some a, some b => some (a + b)
  | _, _ => none

/-- `rangeQuery(left, right) = query(right) - query(left - 1)`. -/
def rangeQuery (t : BinaryIndexedTree) (left right : Int) : Option Int :=
  nanAdd (t.queryI right) ((t.queryI (left - 1)).map (- ·))

/-- The set of 1-based indices visited by the `update` loop started at `idx`
(a function of the start index, the array length and the fuel only). -/
def touches : Nat → Nat → Nat → Nat → Bool
  | 0, _, _, _ => false
  | f + 1, idx, len, j =>
    if idx < len then (idx = j) || touches f (idx + lowbit idx) len j else false

theorem updateAux_length (f : Nat) :
    ∀ (bit : List Int) (idx : Nat) (delta : Int),
      (updateAux f bit idx delta).length = bit.length := by
  induction f with
  | zero => intro bit idx delta ; rfl
  | succ f ih =>
    intro bit idx delta
    unfold updateAux
    by_cases h : idx < bit.length
    · simp only [h, if_true]
      rw [ih]
      simp
    · simp [h]

theorem touches_false_of_lt (f : Nat) :
    ∀ (idx len j : Nat), j < idx → touches f idx len j = false := by
  induction f with
  | zero => intro idx len j _ ; rfl
  | succ f ih =>
    intro idx len j hj
    unfold touches
    by_cases h : idx < len
    · have h1 : (idx = j) = False := by simp ; omega
      have h2 : touches f (idx + lowbit idx) len j = false := by
        apply ih ; omega
      simp [h, h1, h2]
    · simp [h]

/-- Pointwise description of the `update` loop: index `j` gains `delta`
exactly when the loop visits it. -/
theorem updateAux_getD (f : Nat) :
    ∀ (bit : List Int) (idx : Nat) (delta : Int) (j : Nat), 0 < idx →
      (updateAux f bit idx delta).getD j 0 =
        bit.getD j 0 + (if touches f idx bit.length j then delta else 0) := by
  induction f with
  | zero => intro bit idx delta j _ ; simp [updateAux, touches]
  | succ f ih =>
    intro bit idx delta j hidx
    unfold updateAux touches
    by_cases h : idx < bit.length
    · simp only [h, if_true]
      rw [ih _ _ _ _ (by omega : 0 < idx + lowbit idx)]
      rw [List.length_set]
      by_cases hj : idx = j
      · subst hj
        have hnt : touches f (idx + lowbit idx) bit.length idx = false := by
          apply touches_false_of_lt
          have := lowbit_pos hidx
          omega
        simp [hnt, List.getD, List.getElem?_set_self, h]
      · have : (bit.set idx (bit.getD idx 0 + delta)).getD j 0 = bit.getD j 0 := by
          simp [List.getD, List.getElem?_set_ne hj]
        rw [this]
        simp [hj]
    · simp [h]

theorem update_bit_length (t : BinaryIndexedTree) (idx : Nat) (delta : Int) :
    (t.update idx delta).bit.length = t.bit.length := by
  simp [update, updateAux_length]

theorem update_getD (t : BinaryIndexedTree) (idx : Nat) (delta : Int) (j : Nat) :
    (t.update idx delta).bit.getD j 0 =
      t.bit.getD j 0 + (if touches t.bit.length (idx + 1) t.bit.length j then delta else 0) := by
  show (updateAux t.bit.length t.bit (idx + 1) delta).getD j 0 = _
  rw [updateAux_getD _ _ _ _ _ (by omega : 0 < idx + 1)]

/-- Helper extensionality: equal lengths and equal `getD` values give equal
backing arrays. -/
theorem bit_ext {t t' : BinaryIndexedTree} (hlen : t.bit.length = t'.bit.length)
    (h : ∀ j, t.bit.getD j 0 = t'.bit.getD j 0) : t = t' := by
  cases t with
  | mk l =>
    cases t' with
    | mk l' =>
      congr 1
      apply List.ext_getElem hlen
      intro i h1 h2
      have := h i
      simpa [List.getD, List.getElem?_eq_getElem, h1, h2] using this

/-- Point updates commute. -/
theorem update_comm (t : BinaryIndexedTree) (a a' : Nat) (d d' : Int) :
    (t.update a d).update a' d' = (t.update a' d').update a d := by
  apply bit_ext
  · simp [update_bit_length]
  · intro j
    rw [update_getD, update_getD, update_getD, update_getD,
      update_bit_length, update_bit_length]
    ring

/-- An update followed by its inverse restores the tree. -/
theorem update_cancel (t : BinaryIndexedTree) (a : Nat) (d : Int) :
    (t.update a d).update a (-d) = t := by
  apply bit_ext
  · simp [update_bit_length]
  · intro j
    rw [update_getD, update_getD, update_bit_length]
    by_cases h : touches t.bit.length (a + 1) t.bit.length j <;> simp [h]

end BinaryIndexedTree

/-! ## Text CRDT (`src/crdt/text.ts`) -/

/-- `TextFilePatchOperation`: `{at, text}` inserts, `{at, length}` deletes.
The field `at` of the source is spelled `atIdx` (`at` is reserved in Lean). -/
inductive TextFilePatchOperation
  | insertAt (atIdx : Nat) (text : Str)
  | deleteAt (atIdx : Nat) (length : Nat)
  deriving Repr, DecidableEq

/-- The `at` field of an operation. -/
def TextFilePatchOperation.opAt : TextFilePatchOperation → Nat
  | .insertAt a _ => a
  | .deleteAt a _ => a

/-- The net length delta an operation records in the session BIT:
`+text.length` for inserts, `-length` for deletes. -/
def TextFilePatchOperation.opDelta : TextFilePatchOperation → Int
  | .insertAt _ t => (t.length : Int)
  | .deleteAt _ l => -(l : Int)

namespace text

open BinaryIndexedTree

/-- `str.slice(0, x)` where `x` is a non-negative number or `NaN` (`none`):
`slice(0, NaN)` is the empty string. -/
def jsSliceTo (s : Str) : Option Int → Str
  | none => []
  | some o => s.take o.toNat

/-- `str.slice(x)` where `x` is a non-negative number or `NaN` (`none`):
`slice(NaN)` is the whole string. -/
def jsSliceFrom (s : Str) : Option Int → Str
  | none => s
  | some o => s.drop o.toNat

/-- `x < 0` for a JS number that may be `NaN`: `NaN < 0` is `false`. -/
def nanLtZero : Option Int → Bool
  | none => false
  | some o => o < 0

/-- State threaded through the `reduce` in `apply`: the accumulating pair
`[str, success]`, the (mutated-in-place) BIT `offsets`, and the `rollbacks`
array of pending inverse updates `(at, delta)`. -/
structure ApplyState where
  str : Str
  success : Bool
  offsets : BinaryIndexedTree
  rollbacks : List (Nat × Int)
  deriving Repr

/-- `applyPatch(offsets, rollbacks)` — the reducer applied to one operation. -/
def applyPatch (st : ApplyState) (op : TextFilePatchOperation) : ApplyState :=
  if st.success = false then st
  else
    match op with
    | .deleteAt a len =>
      let offset : Option Int := (st.offsets.query a).map (· + a)
      if nanLtZero offset then { st with success := false }
      else
        let before := jsSliceTo st.str offset
        let after := jsSliceFrom st.str (offset.map (· + len))
        { str := before ++ after
          success := true
          offsets := st.offsets.update a (-(len : Int))
          rollbacks := st.rollbacks ++ [(a, (len : Int))] }
    | .insertAt a text =>
      let offset : Option Int := (st.offsets.query a).map (· + a)
      if nanLtZero offset then { st with success := false }
      else
        let before := jsSliceTo st.str offset
        let after := jsSliceFrom st.str offset
        { str := before ++ text ++ after
          success := true
          offsets := st.offsets.update a (text.length : Int)
          rollbacks := st.rollbacks ++ [(a, -(text.length : Int))] }

/-- `apply(str, ops, offsets)`: reduce the operations, and on failure run all
recorded rollbacks (the BIT is mutated in place in the source, so the final
tree is returned explicitly here). -/
def apply (s : Str) (ops : List TextFilePatchOperation) (offsets : BinaryIndexedTree) :
    Str × Bool × BinaryIndexedTree :=
  let st := ops.foldl applyPatch ⟨s, true, offsets, []⟩
  if st.success then (st.str, true, st.offsets)
  else (st.str, false, st.rollbacks.foldl (fun t p => t.update p.1 p.2) st.offsets)

/-- The loop of `shrinkOperations`: `acc` is `groupedOperations`, `cur` the
mutable `currentOperation`, `lastIdx` the mutable run cursor. -/
def shrinkGo : List TextFilePatchOperation → TextFilePatchOperation → Nat →
    List TextFilePatchOperation → List TextFilePatchOperation
  | acc, cur, _, [] => acc ++ [cur]
  | acc, cur, lastIdx, op :: rest =>
    if op.opAt = lastIdx + 1 then
      match cur, op with
      | .deleteAt a l1, .deleteAt _ l2 => shrinkGo acc (.deleteAt a (l1 + l2)) (lastIdx + 1) rest
      | .insertAt a t1, .insertAt _ t2 => shrinkGo acc (.insertAt a (t1 ++ t2)) (lastIdx + 1) rest
      | _, _ => shrinkGo (acc ++ [cur]) op op.opAt rest
    else shrinkGo (acc ++ [cur]) op op.opAt rest

/-- `shrinkOperations`: coalesce same-kind operations at consecutive indices. -/
def shrinkOperations : List TextFilePatchOperation → List TextFilePatchOperation
  | [] => []
  | c :: rest => shrinkGo [] c c.opAt rest

/-- The DP recurrence of `diff` with explicit fuel:
`dp[i][j] = old[i-1] == new[j-1] ? dp[i-1][j-1] + 1 : max(dp[i-1][j], dp[i][j-1])`. -/
def lcsF (oldS newS : Str) : Nat → Nat → Nat → Nat
  | 0, _, _ => 0
  | f + 1, i, j =>
    match i, j with
    | 0, _ => 0
    | _, 0 => 0
    | i' + 1, j' + 1 =>
      if oldS.get? i' = newS.get? j' then lcsF oldS newS f i' j' + 1
      else max (lcsF oldS newS f i' (j' + 1)) (lcsF oldS newS f (i' + 1) j')

/-- `dp[i][j]` of the `diff` DP matrix (fuel `i + j` always suffices). -/
def dpT (oldS newS : Str) (i j : Nat) : Nat := lcsF oldS newS (i + j) i j

/-- The `insertionLength` scan: extend the insert run while the previous
character of `newStr` equals `newStr[j-1]`. -/
def runLenAux (newS : Str) (j : Nat) : Nat → Nat → Nat
  | 0, k => k
  | f + 1, k =>
    if 0 < j - k ∧ newS.get? (j - k - 1) = newS.get? (j - 1) then runLenAux newS j f (k + 1)
    else k

/-- Length of the insert run grabbed by the trace-back at column `j`. -/
def runLen (newS : Str) (j : Nat) : Nat := runLenAux newS j j 1

/-- The trace-back loop of `diff`, producing operations in application order
(the source `unshift`s, so the op emitted at `(i, j)` ends up after the ops
emitted later at smaller indices).  Fuel `i + j` always suffices since every
branch decreases `i + j`. -/
def tbF (oldS newS : Str) : Nat → Nat → Nat → List TextFilePatchOperation
  | 0, _, _ => []
  | f + 1, i, j =>
    if i = 0 ∧ j = 0 then []
    else if 0 < i ∧ 0 < j ∧ oldS.get? (i - 1) = newS.get? (j - 1) then
      tbF oldS newS f (i - 1) (j - 1)
    else if 0 < j ∧ (i = 0 ∨ dpT oldS newS (i - 1) j ≤ dpT oldS newS i (j - 1)) then
      tbF oldS newS f i (j - runLen newS j) ++
        [.insertAt i ((newS.drop (j - runLen newS j)).take (runLen newS j))]
    else
      tbF oldS newS f (i - 1) j ++ [.deleteAt (i - 1) 1]

/-- `diff(oldStr, newStr)`: LCS trace-back followed by the coalescing pass. -/
def diff (oldS newS : Str) : List TextFilePatchOperation :=
  shrinkOperations (tbF oldS newS (oldS.length + newS.length) oldS.length newS.length)

end text

/-! ## Realtime volume actor (`src/realtime.ts`)

File contents are `Str`; the JSON values handled by `fast-json-patch` and the
RFC 6902 operations are abstract types (`Json`, `J`), with the external
library functions (`JSON.parse`, `applyReducer`, `JSON.stringify`) passed as
parameters.  Durable-object storage failures (the `try`/`catch` around
`fs.writeFile`/`fs.unlink`) are modelled by a per-path failure oracle
`commitFail`: the in-memory tier always succeeds, the durable tier throws on
the failing paths (the `Promise.all` in `tieredFS` then rejects). -/

/-- `FilePatchResult`: the `deleted?` field is absent (hence falsy) unless the
JSON branch sets it. -/
structure FilePatchResult where
  path : String
  accepted : Bool
  content : Option Str
  deleted : Bool
  deriving Repr, DecidableEq

/-- `FilePatch`, discriminated as in `realtime.types.ts`: `patches` present →
JSON patch; else `content` present (possibly `null`) → text set; else text
patch. -/
inductive FilePatch (J : Type)
  | json (path : String) (patches : List J)
  | textSet (path : String) (content : Option Str)
  | textPatch (path : String) (timestamp : Nat) (operations : List TextFilePatchOperation)
  deriving Repr, DecidableEq

/-- The path of a patch (`patch.path`). -/
def FilePatch.path {J : Type} : FilePatch J → String
  | .json p _ => p
  | .textSet p _ => p
  | .textPatch p _ _ => p

/-- Check for the text-set variant. -/
def FilePatch.isTextSet {J : Type} : FilePatch J → Bool
  | .textSet _ _ => true
  | _ => false

/-- `ServerEvent` broadcast to subscribers. -/
structure ServerEvent where
  messageId : Option String
  path : String
  timestamp : Nat
  deleted : Bool
  deriving Repr, DecidableEq

/-- `createMemFS`: a map from path to content. -/
abbrev MemFS := String → Option Str

/-- `memFS.writeFile` (`root.set(path, { content })`). -/
def memWrite (m : MemFS) (p : String) (c : Str) : MemFS :=
  fun q => if q = p then some c else m q

/-- `memFS.unlink` (`root.delete(path)`). -/
def memUnlink (m : MemFS) (p : String) : MemFS :=
  fun q => if q = p then none else m q

/-- Keys of the durable-object storage.  The source uses the strings
`meta::<path>` and `chunk::<path>::<i>`; the separators and the distinct
prefixes make that encoding injective, so keys are modelled by this
inductive. -/
inductive StorageKey
  | metaK (path : String)
  | chunkK (path : String) (chunk : Nat)
  deriving Repr, DecidableEq

/-- A stored value: a raw chunk (`Uint8Array`) or a `Metadata` record listing
chunk keys. -/
inductive DVal (β : Type)
  | chunk (data : List β)
  | meta (chunks : List StorageKey)
  deriving Repr, DecidableEq

/-- `createDurableFS` state: the durable object's key-value storage. -/
abbrev DurableStore (β : Type) := StorageKey → Option (DVal β)

/-- `MAX_CHUNK_SIZE`. -/
def MAX_CHUNK_SIZE : Nat := 131072

/-- The chunking loop of `durableFS.writeFile`: successive
`fullData.slice(chunk * MAX, (chunk + 1) * MAX)` while data remains.  Fuel
`|l|` always suffices since every step consumes at least one element. -/
def chunksOf {β : Type} : Nat → List β → List (List β)
  | 0, _ => []
  | f + 1, l =>
    if l.isEmpty then [] else l.take MAX_CHUNK_SIZE :: chunksOf f (l.drop MAX_CHUNK_SIZE)

/-- The record of chunk writes built by the loop of `writeFile`:
`chunks[chunkKey(filepath, chunk)] = slice`, in index order starting at `i`. -/
def chunkRecords {β : Type} (p : String) : Nat → List (List β) → List (StorageKey × List β)
  | _, [] => []
  | i, c :: rest => (.chunkK p i, c) :: chunkRecords p (i + 1) rest

/-- `durableFS.writeFile(filepath, content)`: encode, chunk, `put` all chunk
records, then `put` the metadata listing the chunk keys in order
(`Object.keys(chunks)` preserves insertion order). -/
def durWrite {β : Type} (encode : Str → List β) (d : DurableStore β) (p : String)
    (content : Str) : DurableStore β :=
  let full := encode content
  let recs := chunkRecords p 0 (chunksOf full.length full)
  let d1 := recs.foldl (fun acc kv => fun q => if q = kv.1 then some (.chunk kv.2) else acc q) d
  fun q => if q = .metaK p then some (.meta (recs.map Prod.fst)) else d1 q

/-- `durableFS.readFile(filepath)`: fetch metadata (`none` = `ENOENT`), fetch
every listed chunk, concatenate. -/
def durRead {β : Type} (d : DurableStore β) (p : String) : Option (List β) :=
  match d (.metaK p) with
  | some (.meta ks) =>
    (ks.mapM (fun k => match d k with | some (.chunk b) => some b | _ => none)).map List.flatten
  | _ => none

/-- `durableFS.unlink(filepath)`: no-op when the metadata is absent, else
delete the metadata and all chunk keys. -/
def durUnlink {β : Type} (d : DurableStore β) (p : String) : DurableStore β :=
  match d (.metaK p) with
  | some (.meta ks) => fun q => if q = .metaK p ∨ q ∈ ks then none else d q
  | _ => d

/-- The state of one (non-ephemeral) `Realtime` volume: the two file tiers,
the text sessions and the logical timestamp. -/
structure VolumeState (β : Type) where
  mem : MemFS
  durable : DurableStore β
  textState : Nat → Option BinaryIndexedTree
  timestamp : Nat

/-- `tieredFS.writeFile`: write both tiers.  The in-memory write always
succeeds; when the durable write throws (`fail`), `Promise.all` rejects and
the caller observes the failure, but the memory tier keeps the new content. -/
def fsWrite {β : Type} (encode : Str → List β) (fail : Bool) (st : VolumeState β)
    (p : String) (c : Str) : VolumeState β × Bool :=
  ({ st with
      mem := memWrite st.mem p c
      durable := if fail then st.durable else durWrite encode st.durable p c }, !fail)

/-- `tieredFS.unlink`: both tiers, same failure behaviour as `fsWrite`. -/
def fsUnlink {β : Type} (fail : Bool) (st : VolumeState β) (p : String) :
    VolumeState β × Bool :=
  ({ st with
      mem := memUnlink st.mem p
      durable := if fail then st.durable else durUnlink st.durable p }, !fail)

/-- Modelled from the spec: `new BinaryIndexedTree()` in `realtime.ts` comes
from `./crdt/bit.ts`, which is not in the tree (only `src/bit.ts` is); spec
§4.5 step 3 installs "a new empty BIT", and the surviving variant constructs
it with capacity `2 ** 8`. -/
def freshBIT : BinaryIndexedTree := BinaryIndexedTree.make (2 ^ 8)

section Handler

variable {β J Json : Type}

/-- `JSON.stringify(operations.reduce(applyReducer, JSON.parse(content)))`:
any JS exception (parse error, failed `test` op, …) is `none`. -/
def jsonNewContent (parseJson : Str → Option Json) (applyReducer : Json → J → Option Json)
    (stringify : Json → Str) (content : Str) (ops : List J) : Option Str :=
  ((parseJson content).bind (fun js => ops.foldlM applyReducer js)).map stringify

/-- One iteration of the apply-phase `for (const patch of patches)` loop of
the PATCH handler. -/
def applyStep (encode : Str → List β) (parseJson : Str → Option Json)
    (applyReducer : Json → J → Option Json) (stringify : Json → Str)
    (commitFail : String → Bool)
    (acc : VolumeState β × List FilePatchResult) (patch : FilePatch J) :
    VolumeState β × List FilePatchResult :=
  let st := acc.1
  let results := acc.2
  match patch with
  | .json path ops =>
    let content := (st.mem path).getD ("\x7b\x7d".data)
    match jsonNewContent parseJson applyReducer stringify content ops with
    | some nw =>
      (st, results ++ [⟨path, true, some nw, decide (nw = "null".data)⟩])
    | none => (st, results ++ [⟨path, false, some content, false⟩])
  | .textSet path content =>
    let c := content.getD []
    let (st', ok) := fsWrite encode (commitFail path) st path c
    (st', results ++ [⟨path, ok, some c, false⟩])
  | .textPatch path ts ops =>
    let content := (st.mem path).getD []
    match st.textState ts with
    | none => (st, results ++ [⟨path, false, some content, false⟩])
    | some bit =>
      let r := text.apply content ops bit
      -- The source mutates the BIT in place, so the session entry holds the
      -- post-`apply` tree in both branches (on failure the rollbacks have
      -- restored it, see the rollback theorem); the success branch also runs
      -- the explicit `textState.set(timestamp, bit)`.
      let st' := { st with textState := fun t => if t = ts then some r.2.2 else st.textState t }
      if r.2.1 then (st', results ++ [⟨path, true, some r.1, false⟩])
      else (st', results ++ [⟨path, false, some content, false⟩])

/-- One iteration of the commit loop (`results.map(async (r) => …)`): unlink
deleted entries, write the rest; a storage error flips `accepted` to false
(the memory tier has already taken the write by then). -/
def commitStep (encode : Str → List β) (commitFail : String → Bool)
    (acc : VolumeState β × List FilePatchResult) (r : FilePatchResult) :
    VolumeState β × List FilePatchResult :=
  let st := acc.1
  let done := acc.2
  if r.deleted then
    let (st', ok) := fsUnlink (commitFail r.path) st r.path
    (st', done ++ [if ok then r else { r with accepted := false }])
  else
    let (st', ok) := fsWrite encode (commitFail r.path) st r.path (r.content.getD [])
    (st', done ++ [if ok then r else { r with accepted := false }])

/-- The output of one PATCH request: final volume state, the returned
`timestamp` and `results`, and the `ServerEvent`s broadcast to subscribers. -/
structure PatchOut (β : Type) where
  state : VolumeState β
  timestamp : Nat
  results : List FilePatchResult
  events : List ServerEvent

/-- The PATCH handler of `realtime.ts`: apply phase over all patches, advance
`timestamp` to `Date.now()` (the parameter `now`) and install a fresh BIT
session, commit if every result was accepted, broadcast if after commit every
result is still accepted. -/
def handlePatch (encode : Str → List β) (parseJson : Str → Option Json)
    (applyReducer : Json → J → Option Json) (stringify : Json → Str)
    (commitFail : String → Bool) (now : Nat) (messageId : Option String)
    (st0 : VolumeState β) (patches : List (FilePatch J)) : PatchOut β :=
  let ap := patches.foldl (applyStep encode parseJson applyReducer stringify commitFail)
    (st0, ([] : List FilePatchResult))
  let st2 := { ap.1 with
      timestamp := now
      textState := fun t => if t = now then some freshBIT else ap.1.textState t }
  if ap.2.all (·.accepted) then
    let cm := ap.2.foldl (commitStep encode commitFail) (st2, [])
    let events := if cm.2.all (·.accepted) then
        cm.2.map (fun r => ⟨messageId, r.path, now, r.deleted⟩) else []
    ⟨cm.1, now, cm.2, events⟩
  else
    ⟨st2, now, ap.2, []⟩

end Handler

/-! ## `dedupe` (`src/mutex.ts`) -/

section Dedupe

variable {J : Type}

/-- `Map.set`: replace in place when the key exists, append otherwise. -/
def mapSet (m : List (String × FilePatch J)) (k : String) (v : FilePatch J) :
    List (String × FilePatch J) :=
  if (m.lookup k).isSome then m.map (fun kv => if kv.1 = k then (k, v) else kv)
  else m ++ [(k, v)]

/-- Merging a later patch into the entry for its path: JSON patches
concatenate op arrays, text sets keep the later content, text patches
concatenate operations and take the later `timestamp`; mixed kinds throw
(`none`). -/
def mergePatches : FilePatch J → FilePatch J → Option (FilePatch J)
  | .json p ps1, .json _ ps2 => some (.json p (ps1 ++ ps2))
  | .textSet p _, .textSet _ c2 => some (.textSet p c2)
  | .textPatch p _ ops1, .textPatch _ ts2 ops2 => some (.textPatch p ts2 (ops1 ++ ops2))
  | _, _ => none

/-- The loop of `dedupe` over the input patches, accumulating the insertion-
ordered map. -/
def dedupeGo : List (String × FilePatch J) → List (FilePatch J) →
    Option (List (String × FilePatch J))
  | m, [] => some m
  | m, p :: rest =>
    match m.lookup p.path with
    | none => dedupeGo (mapSet m p.path p) rest
    | some current =>
      match mergePatches current p with
      | some merged => dedupeGo (mapSet m current.path merged) rest
      | none => none

/-- `dedupe(patches)`: per-path merge; `Array.from(map.values())` yields the
merged patches in first-occurrence order.  `none` models the thrown
`Error("Error deduping file patches")`. -/
def dedupe (patches : List (FilePatch J)) : Option (List (FilePatch J)) :=
  (dedupeGo [] patches).map (·.map Prod.snd)

end Dedupe

/-! ## Helper lemmas about `query` and `applyPatch` -/

theorem queryAux_zero (f : Nat) (bit : List Int) : BinaryIndexedTree.queryAux f bit 0 = 0 := by
  cases f <;> simp [BinaryIndexedTree.queryAux]

theorem lowbit_one : lowbit 1 = 1 := rfl

theorem query_zero (t : BinaryIndexedTree) (h : 1 < t.bit.length) :
    t.query 0 = some (t.bit.getD 1 0) := by
  have h' : 0 + 1 < t.bit.length := by omega
  simp only [BinaryIndexedTree.query, h', if_true]
  congr 1
  obtain ⟨f, hf⟩ : ∃ f, t.bit.length = f + 1 := ⟨t.bit.length - 1, by omega⟩
  rw [hf]
  unfold BinaryIndexedTree.queryAux
  simp [lowbit_one, queryAux_zero]

theorem touches_one_one (len : Nat) (h : 1 < len) :
    BinaryIndexedTree.touches len 1 len 1 = true := by
  obtain ⟨f, hf⟩ : ∃ f, len = f + 1 := ⟨len - 1, by omega⟩
  rw [hf]
  unfold BinaryIndexedTree.touches
  simp [show 1 < f + 1 by omega]

theorem query_zero_update_zero (t : BinaryIndexedTree) (d : Int) (v : Int)
    (h : t.query 0 = some v) : (t.update 0 d).query 0 = some (v + d) := by
  have hlen : 1 < t.bit.length := by
    by_contra hc
    have : ¬ (0 + 1 < t.bit.length) := by omega
    simp [BinaryIndexedTree.query, this] at h
  have hlen' : 1 < (t.update 0 d).bit.length := by
    rw [BinaryIndexedTree.update_bit_length] ; exact hlen
  rw [query_zero _ hlen']
  rw [query_zero _ hlen] at h
  rw [BinaryIndexedTree.update_getD]
  simp only [Nat.zero_add]
  rw [touches_one_one _ hlen]
  simp only [Option.some.injEq, if_true] at h ⊢
  omega

/-- `rangeQuery(0, at)` coincides with `query(at)`: the `query(-1)` term
contributes `0`. -/
theorem rangeQuery_zero (t : BinaryIndexedTree) (a : Nat) :
    t.rangeQuery 0 (a : Int) = t.query a := by
  have ha : ¬ ((a : Int) < 0) := by omega
  cases h : t.query a <;>
    simp [BinaryIndexedTree.rangeQuery, BinaryIndexedTree.queryI,
      BinaryIndexedTree.nanAdd, ha, h, Int.toNat_natCast]

theorem applyPatch_of_success_false (st : text.ApplyState) (op : TextFilePatchOperation)
    (h : st.success = false) : text.applyPatch st op = st := by
  unfold text.applyPatch
  simp [h]

theorem foldl_applyPatch_of_success_false (ops : List TextFilePatchOperation)
    (st : text.ApplyState) (h : st.success = false) :
    ops.foldl text.applyPatch st = st := by
  induction ops with
  | nil => rfl
  | cons op rest ih =>
    show (rest.foldl text.applyPatch (text.applyPatch st op)) = st
    rw [applyPatch_of_success_false st op h, ih]

/-- Every step of a successful reduction either fails (leaving everything but
the flag untouched) or performs exactly one BIT update and records its
inverse. -/
theorem applyPatch_cases (s : Str) (b : BinaryIndexedTree) (rbs : List (Nat × Int))
    (op : TextFilePatchOperation) :
    text.applyPatch ⟨s, true, b, rbs⟩ op = ⟨s, false, b, rbs⟩ ∨
    ∃ s', text.applyPatch ⟨s, true, b, rbs⟩ op =
      ⟨s', true, b.update op.opAt op.opDelta, rbs ++ [(op.opAt, -op.opDelta)]⟩ := by
  cases op with
  | insertAt a txt =>
    unfold text.applyPatch
    by_cases h : text.nanLtZero ((b.query a).map (· + (a : Int)))
    · left ; simp [h]
    · right
      exact ⟨text.jsSliceTo s ((b.query a).map (· + (a : Int))) ++ txt ++
          text.jsSliceFrom s ((b.query a).map (· + (a : Int))), by
        simp [h, TextFilePatchOperation.opAt, TextFilePatchOperation.opDelta]⟩
  | deleteAt a len =>
    unfold text.applyPatch
    by_cases h : text.nanLtZero ((b.query a).map (· + (a : Int)))
    · left ; simp [h]
    · right
      exact ⟨text.jsSliceTo s ((b.query a).map (· + (a : Int))) ++
          text.jsSliceFrom s (((b.query a).map (· + (a : Int))).map (· + (len : Int))), by
        simp [h, TextFilePatchOperation.opAt, TextFilePatchOperation.opDelta]⟩

theorem foldl_update_pull (rbs : List (Nat × Int)) (t : BinaryIndexedTree) (a : Nat) (d : Int) :
    rbs.foldl (fun t p => t.update p.1 p.2) (t.update a d) =
      (rbs.foldl (fun t p => t.update p.1 p.2) t).update a d := by
  induction rbs generalizing t with
  | nil => rfl
  | cons p rest ih =>
    show rest.foldl (fun t p => t.update p.1 p.2) ((t.update a d).update p.1 p.2) =
      (rest.foldl (fun t p => t.update p.1 p.2) (t.update p.1 p.2)).update a d
    rw [BinaryIndexedTree.update_comm, ih]

/-- Invariant of the reduction: folding the recorded rollbacks over the
current tree recovers the tree the reduction started from. -/
theorem apply_fold_rollback (ops : List TextFilePatchOperation) :
    ∀ (st : text.ApplyState) (b0 : BinaryIndexedTree),
      st.rollbacks.foldl (fun t p => t.update p.1 p.2) st.offsets = b0 →
      (ops.foldl text.applyPatch st).rollbacks.foldl (fun t p => t.update p.1 p.2)
        (ops.foldl text.applyPatch st).offsets = b0 := by
  induction ops with
  | nil => intro st b0 h ; exact h
  | cons op rest ih =>
    intro st b0 h
    show (rest.foldl text.applyPatch (text.applyPatch st op)).rollbacks.foldl _
        (rest.foldl text.applyPatch (text.applyPatch st op)).offsets = b0
    apply ih
    by_cases hs : st.success = false
    · rw [applyPatch_of_success_false st op hs] ; exact h
    · obtain ⟨str, succ, offs, rolls⟩ := st
      simp only at hs
      have hsucc : succ = true := by
        cases succ
        · exact absurd rfl hs
        · rfl
      subst hsucc
      rcases applyPatch_cases str offs rolls op with hcase | ⟨s', hcase⟩
      · rw [hcase] ; exact h
      · rw [hcase]
        simp only
        rw [List.foldl_append]
        simp only [List.foldl_cons, List.foldl_nil]
        rw [foldl_update_pull]
        simp only at h
        rw [h]
        exact BinaryIndexedTree.update_cancel b0 op.opAt op.opDelta

/-- On a fully successful reduction, the final tree is the sequence of per-op
point updates applied to the initial tree. -/
theorem apply_fold_success (ops : List TextFilePatchOperation) :
    ∀ (s : Str) (b : BinaryIndexedTree) (rbs : List (Nat × Int)),
      (ops.foldl text.applyPatch ⟨s, true, b, rbs⟩).success = true →
      (ops.foldl text.applyPatch ⟨s, true, b, rbs⟩).offsets =
        ops.foldl (fun t op => t.update op.opAt op.opDelta) b := by
  induction ops with
  | nil => intro s b rbs _ ; rfl
  | cons op rest ih =>
    intro s b rbs hsucc
    rcases applyPatch_cases s b rbs op with hcase | ⟨s', hcase⟩
    · exfalso
      simp only [List.foldl_cons, hcase] at hsucc
      rw [foldl_applyPatch_of_success_false rest _ rfl] at hsucc
      exact Bool.false_ne_true hsucc
    · simp only [List.foldl_cons, hcase] at hsucc ⊢
      exact ih s' _ _ hsucc

/-! ## Claim C10 -/

/-- C10: for every `BinaryIndexedTree` constructed with capacity `size` (a
backing array of `size + 1` cells), every index `idx ≥ size` and every
`delta`, `update(idx, delta)` leaves the internal array unchanged, and every
subsequent `query`/`rangeQuery` answers as if the update had never been
issued: the tree never grows beyond its construction-time capacity and drift
recorded at or beyond the capacity is silently discarded. -/
theorem c10_update_beyond_capacity (size idx : Nat) (delta : Int) (t : BinaryIndexedTree)
    (hlen : t.bit.length = size + 1) (hidx : size ≤ idx) :
    t.update idx delta = t ∧
    (∀ r, (t.update idx delta).query r = t.query r) ∧
    (∀ l r, (t.update idx delta).rangeQuery l r = t.rangeQuery l r) := by
  have key : t.update idx delta = t := by
    obtain ⟨bit⟩ := t
    simp only at hlen
    simp only [BinaryIndexedTree.update]
    congr 1
    rw [hlen]
    unfold BinaryIndexedTree.updateAux
    have hguard : ¬ (idx + 1 < bit.length) := by omega
    simp [hguard]
  exact ⟨key, fun r => by rw [key], fun l r => by rw [key]⟩

/-- Witness for C10: a tree of capacity 2, updated at index 2, is unchanged. -/
theorem c10_update_beyond_capacity_witness :
    (BinaryIndexedTree.make 2).update 2 7 = BinaryIndexedTree.make 2 ∧
    ∀ r, ((BinaryIndexedTree.make 2).update 2 7).query r = (BinaryIndexedTree.make 2).query r :=
  ⟨(c10_update_beyond_capacity 2 2 7 (BinaryIndexedTree.make 2) (by decide) (by decide)).1,
    (c10_update_beyond_capacity 2 2 7 (BinaryIndexedTree.make 2) (by decide) (by decide)).2.1⟩

/-! ## Claim C4 -/

/-- C4: each text operation is applied at the physical offset
`off = b.rangeQuery(0, at) + at`; a negative `off` fails the whole sequence
with `success = false` and mutates nothing further (the reducer passes every
later operation through unchanged); `Insert{at, text}` splices `text` at
`off` and then adds `text.length` at BIT index `at`; `Delete{at, length}`
removes `length` code units starting at `off` and then adds `-length` at BIT
index `at`.  Stated for operations whose index lies within the tree's
capacity, where `rangeQuery` denotes an integer. -/
theorem c4_applyPatch_rebase (s : Str) (b : BinaryIndexedTree) (rbs : List (Nat × Int)) :
    (∀ (a : Nat) (txt : Str), a + 1 < b.bit.length →
      ∃ o : Int, b.rangeQuery 0 (a : Int) = some o ∧
        text.applyPatch ⟨s, true, b, rbs⟩ (.insertAt a txt) =
          (if o + a < 0 then ⟨s, false, b, rbs⟩
           else ⟨s.take (o + a).toNat ++ txt ++ s.drop (o + a).toNat, true,
             b.update a (txt.length : Int), rbs ++ [(a, -(txt.length : Int))]⟩)) ∧
    (∀ (a len : Nat), a + 1 < b.bit.length →
      ∃ o : Int, b.rangeQuery 0 (a : Int) = some o ∧
        text.applyPatch ⟨s, true, b, rbs⟩ (.deleteAt a len) =
          (if o + a < 0 then ⟨s, false, b, rbs⟩
           else ⟨s.take (o + a).toNat ++ s.drop ((o + a).toNat + len), true,
             b.update a (-(len : Int)), rbs ++ [(a, (len : Int))]⟩)) ∧
    (∀ op, text.applyPatch ⟨s, false, b, rbs⟩ op = ⟨s, false, b, rbs⟩) := by
  refine ⟨?_, ?_, fun op => applyPatch_of_success_false _ op rfl⟩
  · intro a txt hin
    have hq : b.query a = some (BinaryIndexedTree.queryAux b.bit.length b.bit (a + 1)) := by
      simp [BinaryIndexedTree.query, hin]
    refine ⟨BinaryIndexedTree.queryAux b.bit.length b.bit (a + 1), ?_, ?_⟩
    · rw [rangeQuery_zero, hq]
    · unfold text.applyPatch
      by_cases hneg : BinaryIndexedTree.queryAux b.bit.length b.bit (a + 1) + (a : Int) < 0
      · simp [hq, text.nanLtZero, hneg]
      · simp [hq, text.nanLtZero, hneg, text.jsSliceTo, text.jsSliceFrom]
  · intro a len hin
    have hq : b.query a = some (BinaryIndexedTree.queryAux b.bit.length b.bit (a + 1)) := by
      simp [BinaryIndexedTree.query, hin]
    refine ⟨BinaryIndexedTree.queryAux b.bit.length b.bit (a + 1), ?_, ?_⟩
    · rw [rangeQuery_zero, hq]
    · unfold text.applyPatch
      by_cases hneg : BinaryIndexedTree.queryAux b.bit.length b.bit (a + 1) + (a : Int) < 0
      · simp [hq, text.nanLtZero, hneg]
      · have htn : (BinaryIndexedTree.queryAux b.bit.length b.bit (a + 1) + (a : Int) +
            (len : Int)).toNat =
            (BinaryIndexedTree.queryAux b.bit.length b.bit (a + 1) + (a : Int)).toNat + len := by
          omega
        simp [hq, text.nanLtZero, hneg, text.jsSliceTo, text.jsSliceFrom, htn]

/-- Witness for C4: inserting at position 0 of a two-character document with
a fresh tree of capacity 4. -/
theorem c4_applyPatch_rebase_witness :
    text.applyPatch ⟨("BC".data), true, BinaryIndexedTree.make 4, []⟩
        (.insertAt 0 ("A".data)) =
      ⟨("ABC".data), true, (BinaryIndexedTree.make 4).update 0 1, [(0, -1)]⟩ := by
  obtain ⟨o, ho, heq⟩ :=
    (c4_applyPatch_rebase ("BC".data) (BinaryIndexedTree.make 4) []).1 0 ("A".data) (by decide)
  have ho' : o = 0 := by
    have : (BinaryIndexedTree.make 4).rangeQuery 0 ((0 : Nat) : Int) = some 0 := by decide
    rw [this] at ho
    exact (Option.some.injEq _ _).mp ho.symm
  subst ho'
  simpa using heq

/-! ## Claim C5 -/

/-- C5: if the CRDT `apply` returns `success = false`, every BIT point update
made while processing the sequence has been rolled back — the final tree is
the initial one, so every prefix-sum query answers as before the call; if it
returns `success = true`, the accumulated updates are retained: the final
tree is the initial one with each operation's delta added at its index. -/
theorem c5_apply_rollback (s : Str) (ops : List TextFilePatchOperation)
    (b : BinaryIndexedTree) :
    ((text.apply s ops b).2.1 = false →
      (text.apply s ops b).2.2 = b ∧
      ∀ r, ((text.apply s ops b).2.2).query r = b.query r) ∧
    ((text.apply s ops b).2.1 = true →
      (text.apply s ops b).2.2 = ops.foldl (fun t op => t.update op.opAt op.opDelta) b) := by
  cases hx : (ops.foldl text.applyPatch ⟨s, true, b, []⟩).success with
  | false =>
    have happly : text.apply s ops b =
        ((ops.foldl text.applyPatch ⟨s, true, b, []⟩).str, false,
          (ops.foldl text.applyPatch ⟨s, true, b, []⟩).rollbacks.foldl
            (fun t p => t.update p.1 p.2)
            (ops.foldl text.applyPatch ⟨s, true, b, []⟩).offsets) := by
      unfold text.apply
      simp [hx]
    constructor
    · intro _
      have hb := apply_fold_rollback ops ⟨s, true, b, []⟩ b rfl
      rw [happly]
      exact ⟨hb, fun r => by rw [hb]⟩
    · intro htrue
      rw [happly] at htrue
      simp at htrue
  | true =>
    have happly : text.apply s ops b =
        ((ops.foldl text.applyPatch ⟨s, true, b, []⟩).str, true,
          (ops.foldl text.applyPatch ⟨s, true, b, []⟩).offsets) := by
      unfold text.apply
      simp [hx]
    constructor
    · intro hfalse
      rw [happly] at hfalse
      simp at hfalse
    · intro _
      rw [happly]
      exact apply_fold_success ops s b [] hx

/-- Witness for C5: a sequence whose second operation lands at a negative
offset; the first operation's update is rolled back and the tree returns to
its initial state. -/
theorem c5_apply_rollback_witness :
    (text.apply ("abcdef".data) [.insertAt 0 ("X".data), .deleteAt 2 1]
        ((BinaryIndexedTree.make 8).update 2 (-5))).2.2 =
      (BinaryIndexedTree.make 8).update 2 (-5) :=
  ((c5_apply_rollback ("abcdef".data) [.insertAt 0 ("X".data), .deleteAt 2 1]
      ((BinaryIndexedTree.make 8).update 2 (-5))).1 (by decide)).1

/-! ## Claim C6 -/

set_option maxRecDepth 40000 in
/-- C6 counterexample: the coalescing pass of `diff` merges the two inserts
of `diff("b", "xby")` into `Insert{at: 0, text: "xy"}`, and applying that to
`"b"` yields `"xyb"`, not `"xby"`: the diff/apply round-trip fails. -/
theorem c6_diff_apply_counterexample :
    text.diff ("b".data) ("xby".data) = [.insertAt 0 ("xy".data)] ∧
    (text.apply ("b".data) (text.diff ("b".data) ("xby".data)) freshBIT).1 = ("xyb".data) ∧
    (text.apply ("b".data) (text.diff ("b".data) ("xby".data)) freshBIT).1 ≠ ("xby".data) := by
  refine ⟨by decide, by decide, by decide⟩

theorem runLenAux_ge (newS : Str) (j : Nat) :
    ∀ (f k : Nat), k ≤ text.runLenAux newS j f k := by
  intro f
  induction f with
  | zero => intro k ; exact Nat.le_refl k
  | succ f ih =>
    intro k
    unfold text.runLenAux
    split
    · exact Nat.le_trans (Nat.le_succ k) (ih (k + 1))
    · exact Nat.le_refl k

theorem runLenAux_le (newS : Str) (j : Nat) :
    ∀ (f k : Nat), k ≤ j → text.runLenAux newS j f k ≤ j := by
  intro f
  induction f with
  | zero => intro k hk ; exact hk
  | succ f ih =>
    intro k hk
    unfold text.runLenAux
    split
    · next h => exact ih (k + 1) (by omega)
    · exact hk

theorem runLen_pos (newS : Str) (j : Nat) : 1 ≤ text.runLen newS j :=
  runLenAux_ge newS j j 1

theorem runLen_le (newS : Str) (j : Nat) (h : 1 ≤ j) : text.runLen newS j ≤ j :=
  runLenAux_le newS j j 1 h

/-- Against an empty `oldStr` the trace-back only takes the insert branch:
the result is a list of inserts at position 0 whose texts concatenate to the
prefix of `newStr` of length `j`. -/
theorem tb_empty (newS : Str) :
    ∀ (f j : Nat), j ≤ f →
      ∃ L : List Str, text.tbF [] newS f 0 j = L.map (TextFilePatchOperation.insertAt 0) ∧
        L.flatten = newS.take j := by
  intro f
  induction f with
  | zero =>
    intro j hj
    have : j = 0 := by omega
    subst this
    exact ⟨[], rfl, rfl⟩
  | succ f ih =>
    intro j hj
    by_cases hj0 : j = 0
    · subst hj0
      exact ⟨[], rfl, rfl⟩
    · have h1 : 0 < j := by omega
      have hk1 := runLen_pos newS j
      have hk2 := runLen_le newS j h1
      obtain ⟨L', hL', hflat⟩ := ih (j - text.runLen newS j) (by omega)
      refine ⟨L' ++ [(newS.drop (j - text.runLen newS j)).take (text.runLen newS j)], ?_, ?_⟩
      · unfold text.tbF
        rw [if_neg (by simp [hj0]), if_neg (by simp), if_pos ⟨h1, Or.inl rfl⟩]
        rw [hL']
        simp
      · rw [List.flatten_append, hflat]
        simp only [List.flatten_cons, List.flatten_nil, List.append_nil]
        have : j = (j - text.runLen newS j) + text.runLen newS j := by omega
        conv_rhs => rw [this]
        rw [List.take_add]

/-- `shrinkOperations` does not merge inserts that all sit at position 0
(`0 ≠ lastIdx + 1`). -/
theorem shrinkGo_ins0 :
    ∀ (L : List Str) (acc : List TextFilePatchOperation) (t : Str),
      text.shrinkGo acc (.insertAt 0 t) 0 (L.map (TextFilePatchOperation.insertAt 0)) =
        acc ++ [.insertAt 0 t] ++ L.map (TextFilePatchOperation.insertAt 0) := by
  intro L
  induction L with
  | nil => intro acc t ; simp [text.shrinkGo]
  | cons t' rest ih =>
    intro acc t
    show text.shrinkGo acc (.insertAt 0 t) 0
        (.insertAt 0 t' :: rest.map (TextFilePatchOperation.insertAt 0)) = _
    unfold text.shrinkGo
    rw [if_neg (by simp [TextFilePatchOperation.opAt])]
    have := ih (acc ++ [.insertAt 0 t]) t'
    simp only [TextFilePatchOperation.opAt] at this ⊢
    rw [this]
    simp

/-- `shrinkOperations` is the identity on nonempty lists of inserts at 0. -/
theorem shrink_ins0 (L : List Str) :
    text.shrinkOperations (L.map (TextFilePatchOperation.insertAt 0)) =
      L.map (TextFilePatchOperation.insertAt 0) := by
  cases L with
  | nil => rfl
  | cons t rest =>
    show text.shrinkGo [] (.insertAt 0 t) (TextFilePatchOperation.opAt (.insertAt 0 t))
        (rest.map (TextFilePatchOperation.insertAt 0)) = _
    simp only [TextFilePatchOperation.opAt]
    rw [shrinkGo_ins0 rest [] t]
    simp

/-- Applying a list of inserts at position 0 appends their texts in order:
each offset equals the current document length recorded at BIT index 0. -/
theorem apply_ins0_fold :
    ∀ (L : List Str) (s : Str) (b : BinaryIndexedTree) (rbs : List (Nat × Int)),
      b.query 0 = some ((s.length : Nat) : Int) →
      ((L.map (TextFilePatchOperation.insertAt 0)).foldl text.applyPatch
          ⟨s, true, b, rbs⟩).str = s ++ L.flatten ∧
      ((L.map (TextFilePatchOperation.insertAt 0)).foldl text.applyPatch
          ⟨s, true, b, rbs⟩).success = true ∧
      ((L.map (TextFilePatchOperation.insertAt 0)).foldl text.applyPatch
          ⟨s, true, b, rbs⟩).offsets.query 0 = some (((s ++ L.flatten).length : Nat) : Int) := by
  intro L
  induction L with
  | nil =>
    intro s b rbs h
    refine ⟨by simp, rfl, by simpa using h⟩
  | cons t rest ih =>
    intro s b rbs h
    have hstep : text.applyPatch ⟨s, true, b, rbs⟩ (.insertAt 0 t) =
        ⟨s ++ t, true, b.update 0 (t.length : Int), rbs ++ [(0, -(t.length : Int))]⟩ := by
      unfold text.applyPatch
      have hnn : ¬ (((s.length : Nat) : Int) + (0 : Nat) < 0) := by omega
      have htn : (((s.length : Nat) : Int) + ((0 : Nat) : Int)).toNat = s.length := by omega
      simp [h, text.nanLtZero, text.jsSliceTo, text.jsSliceFrom, hnn, htn]
    have hq' : (b.update 0 (t.length : Int)).query 0 =
        some ((((s ++ t).length : Nat) : Int)) := by
      rw [query_zero_update_zero b (t.length : Int) ((s.length : Nat) : Int) h]
      congr 1
      simp [List.length_append]
    obtain ⟨h1, h2, h3⟩ := ih (s ++ t) (b.update 0 (t.length : Int))
      (rbs ++ [(0, -(t.length : Int))]) hq'
    refine ⟨?_, ?_, ?_⟩ <;> simp only [List.map_cons, List.foldl_cons, hstep]
    · rw [h1] ; simp
    · exact h2
    · rw [h3]
      congr 2
      simp [List.append_assoc]

/-- C6 amended: the diff/apply round-trip fails in general (see the
counterexample `diff("b", "xby")`), but holds whenever the old document is
empty: for every `new`, applying `diff("", new)` to `""` with a fresh empty
BIT succeeds and yields exactly `new`. -/
theorem c6_diff_apply_amended (newS : Str) :
    (text.apply [] (text.diff [] newS) freshBIT).1 = newS ∧
    (text.apply [] (text.diff [] newS) freshBIT).2.1 = true := by
  obtain ⟨L, hL, hflat⟩ := tb_empty newS newS.length newS.length (Nat.le_refl _)
  have hdiff : text.diff [] newS = L.map (TextFilePatchOperation.insertAt 0) := by
    unfold text.diff
    simp only [List.length_nil, Nat.zero_add]
    rw [hL]
    exact shrink_ins0 L
  have hq : freshBIT.query 0 = some (((([] : Str).length : Nat) : Int)) := by
    have hlen : (1 : Nat) < freshBIT.bit.length := by
      show 1 < (List.replicate (2 ^ 8 + 1) (0 : Int)).length
      rw [List.length_replicate] ; omega
    rw [query_zero freshBIT hlen]
    have hg : freshBIT.bit.getD 1 0 = 0 := by
      show (List.replicate (2 ^ 8 + 1) (0 : Int)).getD 1 0 = 0
      rw [List.getD_eq_getElem?_getD, List.getElem?_replicate]
      norm_num
    rw [hg]
    simp
  obtain ⟨h1, h2, _⟩ := apply_ins0_fold L [] freshBIT [] hq
  rw [hdiff]
  unfold text.apply
  simp only [h2, if_true]
  constructor
  · rw [h1, hflat]
    simp
  · trivial

/-! ## Lemmas about the PATCH handler folds -/

section HandlerLemmas

variable {β J Json : Type} (encode : Str → List β) (parseJson : Str → Option Json)
  (applyReducer : Json → J → Option Json) (stringify : Json → Str)
  (commitFail : String → Bool)

/-- One apply-phase step only ever appends to the result vector. -/
theorem applyStep_acc (st : VolumeState β) (acc : List FilePatchResult) (p : FilePatch J) :
    applyStep encode parseJson applyReducer stringify commitFail (st, acc) p =
      ((applyStep encode parseJson applyReducer stringify commitFail (st, []) p).1,
        acc ++ (applyStep encode parseJson applyReducer stringify commitFail (st, []) p).2) := by
  cases p with
  | json path ops =>
    unfold applyStep
    cases h : jsonNewContent parseJson applyReducer stringify
      ((st.mem path).getD ("\x7b\x7d".data)) ops <;> simp [h]
  | textSet path content =>
    unfold applyStep
    simp [fsWrite]
  | textPatch path ts ops =>
    unfold applyStep
    cases h : st.textState ts with
    | none => simp [h]
    | some bit =>
      by_cases hr : (text.apply ((st.mem path).getD []) ops bit).2.1 <;> simp [h, hr]

theorem applyFold_acc (patches : List (FilePatch J)) :
    ∀ (st : VolumeState β) (acc : List FilePatchResult),
      patches.foldl (applyStep encode parseJson applyReducer stringify commitFail) (st, acc) =
        ((patches.foldl (applyStep encode parseJson applyReducer stringify commitFail)
            (st, [])).1,
          acc ++ (patches.foldl (applyStep encode parseJson applyReducer stringify commitFail)
            (st, [])).2) := by
  induction patches with
  | nil => intro st acc ; simp
  | cons p rest ih =>
    intro st acc
    simp only [List.foldl_cons]
    rw [applyStep_acc encode parseJson applyReducer stringify commitFail st acc p]
    rw [ih _ (acc ++ _)]
    conv_rhs => rw [applyStep_acc encode parseJson applyReducer stringify commitFail st [] p,
      ih _ ([] ++ _)]
    simp

/-- I5-flavoured: the apply phase produces exactly one result per patch. -/
theorem applyFold_length (patches : List (FilePatch J)) :
    ∀ (st : VolumeState β),
      (patches.foldl (applyStep encode parseJson applyReducer stringify commitFail)
        (st, [])).2.length = patches.length := by
  induction patches with
  | nil => intro st ; rfl
  | cons p rest ih =>
    intro st
    simp only [List.foldl_cons]
    rw [applyFold_acc]
    have hone : (applyStep encode parseJson applyReducer stringify commitFail
        (st, ([] : List FilePatchResult)) p).2.length = 1 := by
      cases p with
      | json path ops =>
        unfold applyStep
        cases h : jsonNewContent parseJson applyReducer stringify
          ((st.mem path).getD ("\x7b\x7d".data)) ops <;> simp [h]
      | textSet path content =>
        unfold applyStep
        simp [fsWrite]
      | textPatch path ts ops =>
        unfold applyStep
        cases h : st.textState ts with
        | none => simp [h]
        | some bit =>
          by_cases hr : (text.apply ((st.mem path).getD []) ops bit).2.1 <;> simp [h, hr]
    rw [List.length_append, ih, hone]
    simp only [List.length_cons]
    omega

/-- Patches that are not text sets leave both file tiers untouched during the
apply phase. -/
theorem applyStep_mem_durable (st : VolumeState β) (acc : List FilePatchResult)
    (p : FilePatch J) (h : p.isTextSet = false) :
    (applyStep encode parseJson applyReducer stringify commitFail (st, acc) p).1.mem = st.mem ∧
    (applyStep encode parseJson applyReducer stringify commitFail
      (st, acc) p).1.durable = st.durable := by
  cases p with
  | json path ops =>
    unfold applyStep
    cases hj : jsonNewContent parseJson applyReducer stringify
      ((st.mem path).getD ("\x7b\x7d".data)) ops <;> simp [hj]
  | textSet path content => simp [FilePatch.isTextSet] at h
  | textPatch path ts ops =>
    unfold applyStep
    cases ht : st.textState ts with
    | none => simp [ht]
    | some bit =>
      by_cases hr : (text.apply ((st.mem path).getD []) ops bit).2.1 <;> simp [ht, hr]

theorem applyFold_mem_durable (patches : List (FilePatch J)) :
    ∀ (st : VolumeState β) (acc : List FilePatchResult),
      (∀ p ∈ patches, p.isTextSet = false) →
      (patches.foldl (applyStep encode parseJson applyReducer stringify commitFail)
        (st, acc)).1.mem = st.mem ∧
      (patches.foldl (applyStep encode parseJson applyReducer stringify commitFail)
        (st, acc)).1.durable = st.durable := by
  induction patches with
  | nil => intro st acc _ ; exact ⟨rfl, rfl⟩
  | cons p rest ih =>
    intro st acc hall
    simp only [List.foldl_cons]
    obtain ⟨hm, hd⟩ := applyStep_mem_durable encode parseJson applyReducer stringify commitFail
      st acc p (hall p (by simp))
    obtain ⟨hm', hd'⟩ := ih (applyStep encode parseJson applyReducer stringify commitFail
      (st, acc) p).1 (applyStep encode parseJson applyReducer stringify commitFail
      (st, acc) p).2 (fun q hq => hall q (by simp [hq]))
    constructor
    · rw [← hm]
      exact hm'
    · rw [← hd]
      exact hd'

/-- The commit loop never touches the text sessions or the timestamp. -/
theorem commitFold_textState (rs : List FilePatchResult) :
    ∀ (st : VolumeState β) (acc : List FilePatchResult),
      (rs.foldl (commitStep encode commitFail) (st, acc)).1.textState = st.textState ∧
      (rs.foldl (commitStep encode commitFail) (st, acc)).1.timestamp = st.timestamp := by
  induction rs with
  | nil => intro st acc ; exact ⟨rfl, rfl⟩
  | cons r rest ih =>
    intro st acc
    simp only [List.foldl_cons]
    have hstep : (commitStep encode commitFail (st, acc) r).1.textState = st.textState ∧
        (commitStep encode commitFail (st, acc) r).1.timestamp = st.timestamp := by
      unfold commitStep
      by_cases hd : r.deleted <;> simp [hd, fsWrite, fsUnlink]
    obtain ⟨h1, h2⟩ := hstep
    obtain ⟨h1', h2'⟩ := ih (commitStep encode commitFail (st, acc) r).1
      (commitStep encode commitFail (st, acc) r).2
    exact ⟨by rw [h1'] ; exact h1, by rw [h2'] ; exact h2⟩

/-- When no storage write fails, the commit loop reproduces the result vector
unchanged (no `accepted` flag is flipped). -/
theorem commitFold_results_nofail (hnf : ∀ q, commitFail q = false)
    (rs : List FilePatchResult) :
    ∀ (st : VolumeState β) (acc : List FilePatchResult),
      (rs.foldl (commitStep encode commitFail) (st, acc)).2 = acc ++ rs := by
  induction rs with
  | nil => intro st acc ; simp
  | cons r rest ih =>
    intro st acc
    simp only [List.foldl_cons]
    have hstep : (commitStep encode commitFail (st, acc) r).2 = acc ++ [r] := by
      unfold commitStep
      by_cases hd : r.deleted <;> simp [hd, fsWrite, fsUnlink, hnf r.path]
    rw [ih _ _, hstep]
    simp

/-- When some apply-phase result is rejected, the handler skips commit and
broadcast: it returns the staged state with the session advanced, the
apply-phase results, and no events. -/
theorem handlePatch_reject (now : Nat) (messageId : Option String) (st0 : VolumeState β)
    (patches : List (FilePatch J))
    (hall : (patches.foldl (applyStep encode parseJson applyReducer stringify commitFail)
      (st0, [])).2.all (·.accepted) = false) :
    handlePatch encode parseJson applyReducer stringify commitFail now messageId st0 patches =
      ⟨{ (patches.foldl (applyStep encode parseJson applyReducer stringify commitFail)
            (st0, [])).1 with
          timestamp := now
          textState := fun t => if t = now then some freshBIT else
            (patches.foldl (applyStep encode parseJson applyReducer stringify commitFail)
              (st0, [])).1.textState t },
        now,
        (patches.foldl (applyStep encode parseJson applyReducer stringify commitFail)
          (st0, [])).2,
        []⟩ := by
  unfold handlePatch
  simp only [hall, Bool.false_eq_true, if_false]

/-- When every apply-phase result is accepted, the handler runs the commit
loop from the staged state (with the session advanced) and broadcasts iff
every result survived the commit. -/
theorem handlePatch_commit (now : Nat) (messageId : Option String) (st0 : VolumeState β)
    (patches : List (FilePatch J))
    (hall : (patches.foldl (applyStep encode parseJson applyReducer stringify commitFail)
      (st0, [])).2.all (·.accepted) = true) :
    handlePatch encode parseJson applyReducer stringify commitFail now messageId st0 patches =
      ⟨((patches.foldl (applyStep encode parseJson applyReducer stringify commitFail)
            (st0, [])).2.foldl (commitStep encode commitFail)
          ({ (patches.foldl (applyStep encode parseJson applyReducer stringify commitFail)
                (st0, [])).1 with
              timestamp := now
              textState := fun t => if t = now then some freshBIT else
                (patches.foldl (applyStep encode parseJson applyReducer stringify commitFail)
                  (st0, [])).1.textState t }, [])).1,
        now,
        ((patches.foldl (applyStep encode parseJson applyReducer stringify commitFail)
            (st0, [])).2.foldl (commitStep encode commitFail)
          ({ (patches.foldl (applyStep encode parseJson applyReducer stringify commitFail)
                (st0, [])).1 with
              timestamp := now
              textState := fun t => if t = now then some freshBIT else
                (patches.foldl (applyStep encode parseJson applyReducer stringify commitFail)
                  (st0, [])).1.textState t }, [])).2,
        if ((patches.foldl (applyStep encode parseJson applyReducer stringify commitFail)
            (st0, [])).2.foldl (commitStep encode commitFail)
          ({ (patches.foldl (applyStep encode parseJson applyReducer stringify commitFail)
                (st0, [])).1 with
              timestamp := now
              textState := fun t => if t = now then some freshBIT else
                (patches.foldl (applyStep encode parseJson applyReducer stringify commitFail)
                  (st0, [])).1.textState t }, [])).2.all (·.accepted) then
          ((patches.foldl (applyStep encode parseJson applyReducer stringify commitFail)
              (st0, [])).2.foldl (commitStep encode commitFail)
            ({ (patches.foldl (applyStep encode parseJson applyReducer stringify commitFail)
                  (st0, [])).1 with
                timestamp := now
                textState := fun t => if t = now then some freshBIT else
                  (patches.foldl (applyStep encode parseJson applyReducer stringify commitFail)
                    (st0, [])).1.textState t }, [])).2.map
            (fun r => ⟨messageId, r.path, now, r.deleted⟩)
        else []⟩ := by
  unfold handlePatch
  simp only [hall, if_true]

end HandlerLemmas

/-! ## Concrete instantiations used by counterexamples and witnesses

Bytes are character codes, JSON values are their source strings, the RFC 6902
op type is `Unit`, and the reducer rejects every operation (as a failing
`test` op does). -/

def exEncode : Str → List Nat := fun s => s.map Char.toNat

def exParse : Str → Option Str := fun s => some s

def exStringify : Str → Str := fun s => s

def exReducer : Str → Unit → Option Str := fun _ _ => none

def exNoFail : String → Bool := fun _ => false

/-- An empty volume whose current timestamp is 5. -/
def exState : VolumeState Nat := ⟨fun _ => none, fun _ => none, fun _ => none, 5⟩

/-- An empty PATCH batch handled while the wall clock still reads 5. -/
def exOutEmpty : PatchOut Nat :=
  handlePatch exEncode exParse exReducer exStringify exNoFail 5 none exState
    ([] : List (FilePatch Unit))

/-- A mixed batch: a text set on `/a` followed by a JSON patch on `/b` whose
reducer fails. -/
def exPatchesMixed : List (FilePatch Unit) :=
  [.textSet ("/a") (some ("x".data)), .json ("/b") [()]]

def exOutMixed : PatchOut Nat :=
  handlePatch exEncode exParse exReducer exStringify exNoFail 6 none exState exPatchesMixed

/-- A batch with a single failing JSON patch and no text set. -/
def exOutJson : PatchOut Nat :=
  handlePatch exEncode exParse exReducer exStringify exNoFail 6 none exState
    [.json ("/b") [()]]

/-! ## Claim C1 -/

set_option maxRecDepth 40000 in
/-- C1 counterexample: the text-set branch writes to the tiered store during
the apply phase, so a batch whose JSON patch is rejected still leaves
`/a` created in both MemFS and DurableFS even though one result has
`accepted = false` — the store is not byte-identical to its pre-request
state. -/
theorem c1_reject_leaves_store_changed :
    exOutMixed.results.any (fun r => !r.accepted) = true ∧
    exState.mem ("/a") = none ∧
    exOutMixed.state.mem ("/a") = some ("x".data) ∧
    exState.durable (.metaK ("/a")) = none ∧
    exOutMixed.state.durable (.metaK ("/a")) ≠ none := by
  refine ⟨by decide, rfl, by decide, rfl, by decide⟩

/-- C1 amended: broadcast is indeed suppressed whenever any result is
rejected, and the store is left byte-identical — provided the batch contains
no text-set patch (whose write happens eagerly in the apply phase) and no
storage write fails during commit.  Under those hypotheses a rejected result
can only come from the apply phase, the commit is skipped, and MemFS and
DurableFS are unchanged with nothing broadcast. -/
theorem c1_reject_atomic_without_textset {β J Json : Type} (encode : Str → List β)
    (parseJson : Str → Option Json) (applyReducer : Json → J → Option Json)
    (stringify : Json → Str) (commitFail : String → Bool) (now : Nat)
    (messageId : Option String) (st0 : VolumeState β) (patches : List (FilePatch J))
    (hns : ∀ p ∈ patches, p.isTextSet = false) (hnf : ∀ q, commitFail q = false)
    (hrej : (handlePatch encode parseJson applyReducer stringify commitFail now messageId
      st0 patches).results.any (fun r => !r.accepted) = true) :
    (handlePatch encode parseJson applyReducer stringify commitFail now messageId
      st0 patches).state.mem = st0.mem ∧
    (handlePatch encode parseJson applyReducer stringify commitFail now messageId
      st0 patches).state.durable = st0.durable ∧
    (handlePatch encode parseJson applyReducer stringify commitFail now messageId
      st0 patches).events = [] := by
  obtain ⟨hm, hd⟩ := applyFold_mem_durable encode parseJson applyReducer stringify commitFail
    patches st0 [] hns
  cases hall : (patches.foldl (applyStep encode parseJson applyReducer stringify commitFail)
      (st0, [])).2.all (·.accepted) with
  | true =>
    exfalso
    rw [handlePatch_commit encode parseJson applyReducer stringify commitFail now messageId
      st0 patches hall] at hrej
    simp only at hrej
    rw [commitFold_results_nofail encode commitFail hnf] at hrej
    simp only [List.nil_append, List.any_eq_true, Bool.not_eq_true'] at hrej
    simp only [List.all_eq_true] at hall
    obtain ⟨r, hr, hfalse⟩ := hrej
    have htrue := hall r hr
    simp [htrue] at hfalse
  | false =>
    rw [handlePatch_reject encode parseJson applyReducer stringify commitFail now messageId
      st0 patches hall]
    exact ⟨hm, hd, rfl⟩

/-- Witness for C1 (amended): a failing JSON-only batch with no storage
failures leaves both tiers and the subscriber stream untouched. -/
theorem c1_reject_atomic_without_textset_witness :
    exOutJson.state.mem = exState.mem ∧
    exOutJson.state.durable = exState.durable ∧
    exOutJson.events = [] :=
  c1_reject_atomic_without_textset exEncode exParse exReducer exStringify exNoFail 6 none
    exState [.json ("/b") [()]] (by decide) (fun _ => rfl) (by decide)

/-! ## Claim C2 -/

/-- C2 counterexample: the handler sets `timestamp = Date.now()` with no
monotonic guard.  When the wall clock has not advanced past the previous
timestamp (here both read 5), the returned timestamp equals the previous one
— it is neither strictly greater nor `prev + 1`. -/
theorem c2_timestamp_not_monotone :
    exState.timestamp = 5 ∧
    exOutEmpty.timestamp = 5 ∧
    ¬ (exState.timestamp < exOutEmpty.timestamp) ∧
    exOutEmpty.timestamp ≠ exState.timestamp + 1 := by
  refine ⟨rfl, by decide, by decide, by decide⟩

/-- C2 amended: every PATCH — successful or not — sets the returned
`timestamp` to `Date.now()` and installs a fresh empty BIT session at it; the
timestamp strictly increases only when the wall clock advanced past the
previous value (there is no `prev + 1` fallback in the code). -/
theorem c2_timestamp_advances_with_clock {β J Json : Type} (encode : Str → List β)
    (parseJson : Str → Option Json) (applyReducer : Json → J → Option Json)
    (stringify : Json → Str) (commitFail : String → Bool) (now : Nat)
    (messageId : Option String) (st0 : VolumeState β) (patches : List (FilePatch J)) :
    (handlePatch encode parseJson applyReducer stringify commitFail now messageId
      st0 patches).timestamp = now ∧
    (handlePatch encode parseJson applyReducer stringify commitFail now messageId
      st0 patches).state.textState now = some freshBIT ∧
    (st0.timestamp < now →
      st0.timestamp < (handlePatch encode parseJson applyReducer stringify commitFail now
        messageId st0 patches).timestamp) := by
  cases hall : (patches.foldl (applyStep encode parseJson applyReducer stringify commitFail)
      (st0, [])).2.all (·.accepted) with
  | true =>
    rw [handlePatch_commit encode parseJson applyReducer stringify commitFail now messageId
      st0 patches hall]
    refine ⟨rfl, ?_, fun h => h⟩
    show ((_ : List FilePatchResult).foldl (commitStep encode commitFail) _).1.textState now =
      some freshBIT
    rw [(commitFold_textState encode commitFail _ _ _).1]
    simp
  | false =>
    rw [handlePatch_reject encode parseJson applyReducer stringify commitFail now messageId
      st0 patches hall]
    refine ⟨rfl, ?_, fun h => h⟩
    simp

/-- Witness for C2 (amended): with the clock at 6 and the volume at 5, the
returned timestamp is 6, a fresh session is installed at 6, and 5 < 6. -/
theorem c2_timestamp_advances_with_clock_witness :
    exOutMixed.timestamp = 6 ∧
    exOutMixed.state.textState 6 = some freshBIT ∧
    exState.timestamp < exOutMixed.timestamp :=
  ⟨(c2_timestamp_advances_with_clock exEncode exParse exReducer exStringify exNoFail 6 none
      exState exPatchesMixed).1,
    (c2_timestamp_advances_with_clock exEncode exParse exReducer exStringify exNoFail 6 none
      exState exPatchesMixed).2.1,
    (c2_timestamp_advances_with_clock exEncode exParse exReducer exStringify exNoFail 6 none
      exState exPatchesMixed).2.2 (by decide)⟩

/-! ## Claim C3 -/

set_option maxRecDepth 40000 in
/-- C3 counterexample: in the mixed batch the text-set result on `/a` is
`accepted = true` after the commit phase (the commit was skipped), yet no
event at all is broadcast — "event iff result accepted" fails per-result. -/
theorem c3_broadcast_not_per_result :
    (exOutMixed.results[0]?).map (fun r => r.accepted) = some true ∧
    (exOutMixed.results[0]?).map (fun r => r.path) = some ("/a") ∧
    exOutMixed.events = [] := by
  refine ⟨by decide, by decide, by decide⟩

/-- C3 amended: events are broadcast if and only if after commit *every*
result in the batch is accepted, in which case exactly one event per result
is emitted (path, new timestamp, deleted flag); when any result is rejected,
nothing is broadcast — even for the still-accepted results. -/
theorem c3_broadcast_iff_all_accepted {β J Json : Type} (encode : Str → List β)
    (parseJson : Str → Option Json) (applyReducer : Json → J → Option Json)
    (stringify : Json → Str) (commitFail : String → Bool) (now : Nat)
    (messageId : Option String) (st0 : VolumeState β) (patches : List (FilePatch J)) :
    (handlePatch encode parseJson applyReducer stringify commitFail now messageId
      st0 patches).events =
      (if (handlePatch encode parseJson applyReducer stringify commitFail now messageId
          st0 patches).results.all (·.accepted) then
        (handlePatch encode parseJson applyReducer stringify commitFail now messageId
          st0 patches).results.map (fun r => ⟨messageId, r.path, now, r.deleted⟩)
      else []) := by
  cases hall : (patches.foldl (applyStep encode parseJson applyReducer stringify commitFail)
      (st0, [])).2.all (·.accepted) with
  | true =>
    rw [handlePatch_commit encode parseJson applyReducer stringify commitFail now messageId
      st0 patches hall]
  | false =>
    rw [handlePatch_reject encode parseJson applyReducer stringify commitFail now messageId
      st0 patches hall]
    simp [hall]

/-! ## Claim C7 -/

/-- C7: for every JSON file patch at any position of a PATCH batch, the
current content is read from the (staged) store with a missing file treated
as `"{}"`; the op list is folded through the RFC 6902 reducer over the parsed
JSON and the result stringified; on success the result entry is
`accepted = true` with the new content and `deleted` exactly when the new
string is `"null"`; on any parse or reducer failure the entry is
`accepted = false` with the pre-patch content. -/
theorem c7_json_patch_branch {β J Json : Type} (encode : Str → List β)
    (parseJson : Str → Option Json) (applyReducer : Json → J → Option Json)
    (stringify : Json → Str) (commitFail : String → Bool) (st0 : VolumeState β)
    (pre suf : List (FilePatch J)) (path : String) (ops : List J) :
    ((pre ++ .json path ops :: suf).foldl
        (applyStep encode parseJson applyReducer stringify commitFail) (st0, [])).2[pre.length]? =
      some (match jsonNewContent parseJson applyReducer stringify
          (((pre.foldl (applyStep encode parseJson applyReducer stringify commitFail)
              (st0, [])).1.mem path).getD ("\x7b\x7d".data)) ops with
        | some nw => ⟨path, true, some nw, decide (nw = "null".data)⟩
        | none => ⟨path, false,
            some (((pre.foldl (applyStep encode parseJson applyReducer stringify commitFail)
              (st0, [])).1.mem path).getD ("\x7b\x7d".data)), false⟩) := by
  rw [List.foldl_append]
  rw [applyFold_acc encode parseJson applyReducer stringify commitFail pre st0 []]
  rw [show ((pre.foldl (applyStep encode parseJson applyReducer stringify commitFail)
      (st0, [])).1,
    [] ++ (pre.foldl (applyStep encode parseJson applyReducer stringify commitFail)
      (st0, [])).2) =
    ((pre.foldl (applyStep encode parseJson applyReducer stringify commitFail) (st0, [])).1,
      (pre.foldl (applyStep encode parseJson applyReducer stringify commitFail)
        (st0, [])).2) by simp]
  simp only [List.foldl_cons]
  set st1 := (pre.foldl (applyStep encode parseJson applyReducer stringify commitFail)
    (st0, [])).1 with hst1
  set acc1 := (pre.foldl (applyStep encode parseJson applyReducer stringify commitFail)
    (st0, [])).2 with hacc1
  have hlen : acc1.length = pre.length :=
    applyFold_length encode parseJson applyReducer stringify commitFail pre st0
  have hjson : applyStep encode parseJson applyReducer stringify commitFail (st1, acc1)
      (.json path ops) = (st1, acc1 ++
        [match jsonNewContent parseJson applyReducer stringify
            ((st1.mem path).getD ("\x7b\x7d".data)) ops with
          | some nw => ⟨path, true, some nw, decide (nw = "null".data)⟩
          | none => ⟨path, false, some ((st1.mem path).getD ("\x7b\x7d".data)), false⟩]) := by
    unfold applyStep
    cases h : jsonNewContent parseJson applyReducer stringify
      ((st1.mem path).getD ("\x7b\x7d".data)) ops <;> simp [h]
  rw [hjson]
  rw [applyFold_acc encode parseJson applyReducer stringify commitFail suf st1 (acc1 ++ _)]
  have hidx : pre.length = acc1.length + 0 := by omega
  rw [hidx]
  rw [List.append_assoc]
  rw [List.getElem?_append_right (by omega)]
  simp

/-! ## Claim C8 -/

theorem chunksOf_flatten {β : Type} :
    ∀ (f : Nat) (l : List β), l.length ≤ f → (chunksOf f l).flatten = l := by
  intro f
  induction f with
  | zero =>
    intro l h
    have : l = [] := List.eq_nil_of_length_eq_zero (by omega)
    subst this
    rfl
  | succ f ih =>
    intro l h
    unfold chunksOf
    by_cases he : l.isEmpty
    · simp [he, List.isEmpty_iff.mp he]
    · have hne : l ≠ [] := by
        intro hc ; subst hc ; simp at he
      have h1 : 0 < l.length := List.length_pos.mpr hne
      have hM : 1 ≤ MAX_CHUNK_SIZE := by norm_num [MAX_CHUNK_SIZE]
      have hlen : (l.drop MAX_CHUNK_SIZE).length ≤ f := by
        rw [List.length_drop]
        omega
      simp only [he, Bool.false_eq_true, if_false, List.flatten_cons]
      rw [ih (l.drop MAX_CHUNK_SIZE) hlen]
      exact List.take_append_drop MAX_CHUNK_SIZE l

theorem chunksOf_size {β : Type} :
    ∀ (f : Nat) (l : List β) (c : List β), c ∈ chunksOf f l → c.length ≤ MAX_CHUNK_SIZE := by
  intro f
  induction f with
  | zero => intro l c hc ; simp [chunksOf] at hc
  | succ f ih =>
    intro l c hc
    unfold chunksOf at hc
    by_cases he : l.isEmpty
    · simp [he] at hc
    · simp only [he, Bool.false_eq_true, if_false, List.mem_cons] at hc
      rcases hc with hc | hc
      · subst hc
        rw [List.length_take]
        omega
      · exact ih _ c hc

/-- The chunk-record writes do not disturb metadata keys. -/
theorem chunkFold_meta {β : Type} (p : String) :
    ∀ (cs : List (List β)) (i : Nat) (d : DurableStore β) (p' : String),
      ((chunkRecords p i cs).foldl
        (fun acc kv => fun q => if q = kv.1 then some (.chunk kv.2) else acc q) d)
          (.metaK p') = d (.metaK p') := by
  intro cs
  induction cs with
  | nil => intro i d p' ; rfl
  | cons c rest ih =>
    intro i d p'
    simp only [chunkRecords, List.foldl_cons]
    rw [ih (i + 1)]
    simp

/-- Chunk records with indices at least `i` do not disturb the key of a chunk
with index `j < i`. -/
theorem chunkFold_past {β : Type} (p : String) :
    ∀ (cs : List (List β)) (i j : Nat) (d : DurableStore β), j < i →
      ((chunkRecords p i cs).foldl
        (fun acc kv => fun q => if q = kv.1 then some (.chunk kv.2) else acc q) d)
          (.chunkK p j) = d (.chunkK p j) := by
  intro cs
  induction cs with
  | nil => intro i j d _ ; rfl
  | cons c rest ih =>
    intro i j d hj
    simp only [chunkRecords, List.foldl_cons]
    rw [ih (i + 1) j _ (by omega)]
    have hne : ¬ (StorageKey.chunkK p j = StorageKey.chunkK p i) := by
      simp ; omega
    simp [hne]

/-- Every key recorded by the chunk write loop is a chunk key, never a
metadata key. -/
theorem chunkRecords_keys_ne_meta {β : Type} (p : String) :
    ∀ (cs : List (List β)) (i : Nat) (k : StorageKey),
      k ∈ (chunkRecords p i cs).map Prod.fst → ∀ p', k ≠ .metaK p' := by
  intro cs
  induction cs with
  | nil => intro i k hk ; simp [chunkRecords] at hk
  | cons c rest ih =>
    intro i k hk p'
    simp only [chunkRecords, List.map_cons, List.mem_cons] at hk
    rcases hk with hk | hk
    · subst hk ; simp
    · exact ih (i + 1) k hk p'

theorem mapM_option_congr {α γ : Type} :
    ∀ (l : List α) (f g : α → Option γ), (∀ a ∈ l, f a = g a) → l.mapM f = l.mapM g := by
  intro l
  induction l with
  | nil => intro f g _ ; rfl
  | cons a rest ih =>
    intro f g h
    rw [List.mapM_cons, List.mapM_cons, h a (by simp), ih f g (fun x hx => h x (by simp [hx]))]

/-- Reading every chunk key recorded by the write loop out of the written
store recovers the chunk list. -/
theorem chunkFold_read {β : Type} (p : String) :
    ∀ (cs : List (List β)) (i : Nat) (d : DurableStore β),
      ((chunkRecords p i cs).map Prod.fst).mapM (fun k =>
        match ((chunkRecords p i cs).foldl
          (fun acc kv => fun q => if q = kv.1 then some (.chunk kv.2) else acc q) d) k with
        | some (.chunk b) => some b
        | _ => none) = some cs := by
  intro cs
  induction cs with
  | nil => intro i d ; rfl
  | cons c rest ih =>
    intro i d
    simp only [chunkRecords, List.map_cons, List.foldl_cons, List.mapM_cons]
    have hhead : ((chunkRecords p (i + 1) rest).foldl
        (fun acc kv => fun q => if q = kv.1 then some (.chunk kv.2) else acc q)
        ((fun acc kv => fun q => if q = kv.1 then some (DVal.chunk kv.2) else acc q) d
          (StorageKey.chunkK p i, c))) (.chunkK p i) = some (.chunk c) := by
      rw [chunkFold_past p rest (i + 1) i _ (by omega)]
      simp
    rw [hhead]
    rw [ih (i + 1)]
    rfl

/-- C8: for every string `s` — including the empty string and strings whose
encoding exceeds one chunk — `DurableFS.readFile(p)` after
`writeFile(p, s)` returns exactly `s`, and every chunk record written holds
at most `131072` bytes.  The UTF-8 codec (`TextEncoder`/`TextDecoder`) is
abstract, assumed only to round-trip. -/
theorem c8_durable_chunking_roundtrip {β : Type} (encode : Str → List β)
    (decode : List β → Option Str) (hcodec : ∀ s, decode (encode s) = some s)
    (d : DurableStore β) (p : String) (s : Str) :
    (durRead (durWrite encode d p s) p).bind decode = some s ∧
    ∀ c ∈ chunksOf (encode s).length (encode s), c.length ≤ MAX_CHUNK_SIZE := by
  constructor
  · have hmeta : durWrite encode d p s (.metaK p) =
        some (.meta ((chunkRecords p 0 (chunksOf (encode s).length (encode s))).map
          Prod.fst)) := by
      unfold durWrite
      simp
    have hchunks : ∀ k ∈ (chunkRecords p 0
        (chunksOf (encode s).length (encode s))).map Prod.fst,
        durWrite encode d p s k =
          ((chunkRecords p 0 (chunksOf (encode s).length (encode s))).foldl
            (fun acc kv => fun q => if q = kv.1 then some (.chunk kv.2) else acc q) d) k := by
      intro k hk
      have hne := chunkRecords_keys_ne_meta p _ 0 k hk p
      unfold durWrite
      simp [hne]
    have hread : durRead (durWrite encode d p s) p = some (encode s) := by
      unfold durRead
      rw [hmeta]
      dsimp only
      rw [mapM_option_congr _
        (fun k => match durWrite encode d p s k with
          | some (.chunk b) => some b
          | _ => none)
        (fun k => match ((chunkRecords p 0 (chunksOf (encode s).length (encode s))).foldl
            (fun acc kv => fun q => if q = kv.1 then some (.chunk kv.2) else acc q) d) k with
          | some (.chunk b) => some b
          | _ => none)
        (fun k hk => by dsimp only ; rw [hchunks k hk])]
      rw [chunkFold_read p (chunksOf (encode s).length (encode s)) 0 d]
      simp [chunksOf_flatten (encode s).length (encode s) (Nat.le_refl _)]
    rw [hread]
    simp only [Option.bind]
    exact hcodec s
  · exact fun c hc => chunksOf_size (encode s).length (encode s) c hc

/-- Witness for C8: the identity codec on character lists round-trips the
two-character file `hi` through an empty store. -/
theorem c8_durable_chunking_roundtrip_witness :
    (durRead (durWrite (β := Char) (fun s => s) (fun _ => none) ("/f") ("hi".data))
        ("/f")).bind (fun l => some l) = some ("hi".data) ∧
    ∀ c ∈ chunksOf (("hi".data)).length ("hi".data), c.length ≤ MAX_CHUNK_SIZE :=
  c8_durable_chunking_roundtrip (fun s => s) (fun l => some l) (fun _ => rfl)
    (fun _ => none) ("/f") ("hi".data)

/-! ## Claim C9 -/

section DedupeSpec

variable {J : Type}

/-- The distinct paths of the input in first-occurrence order. -/
def firstOccPaths (ps : List (FilePatch J)) : List String :=
  ps.foldl (fun acc p => if p.path ∈ acc then acc else acc ++ [p.path]) []

/-- Merge a path's group of patches in input order. -/
def mergeGroup : List (FilePatch J) → Option (FilePatch J)
  | [] => none
  | p :: rest => rest.foldlM mergePatches p

/-- Reference description of `dedupe` per the amended claim: one merged patch
per path, paths in first-occurrence order, each path's patches merged left to
right. -/
def dedupeSpec (ps : List (FilePatch J)) : Option (List (FilePatch J)) :=
  (firstOccPaths ps).mapM
    (fun path => mergeGroup (ps.filter (fun p => decide (p.path = path))))

theorem firstOccPaths_append_one (pre : List (FilePatch J)) (p : FilePatch J) :
    firstOccPaths (pre ++ [p]) =
      if p.path ∈ firstOccPaths pre then firstOccPaths pre
      else firstOccPaths pre ++ [p.path] := by
  unfold firstOccPaths
  rw [List.foldl_append]
  rfl

theorem mem_foldl_paths (k : String) :
    ∀ (ps : List (FilePatch J)) (acc : List String),
      k ∈ ps.foldl (fun acc p => if p.path ∈ acc then acc else acc ++ [p.path]) acc ↔
        k ∈ acc ∨ ∃ q ∈ ps, q.path = k := by
  intro ps
  induction ps with
  | nil => intro acc ; simp
  | cons p rest ih =>
    intro acc
    simp only [List.foldl_cons]
    rw [ih]
    by_cases hp : p.path ∈ acc
    · simp only [hp, if_true, List.mem_cons]
      constructor
      · rintro (h | h)
        · exact Or.inl h
        · exact Or.inr (by obtain ⟨q, hq, hqk⟩ := h ; exact ⟨q, by simp [hq], hqk⟩)
      · rintro (h | ⟨q, hq, hqk⟩)
        · exact Or.inl h
        · rcases hq with hq | hq
          · subst hq ; subst hqk ; exact Or.inl hp
          · exact Or.inr ⟨q, hq, hqk⟩
    · simp only [hp, if_false, List.mem_append, List.mem_singleton]
      constructor
      · rintro ((h | h) | h)
        · exact Or.inl h
        · subst h ; exact Or.inr ⟨p, by simp, rfl⟩
        · obtain ⟨q, hq, hqk⟩ := h ; exact Or.inr ⟨q, by simp [hq], hqk⟩
      · rintro (h | ⟨q, hq, hqk⟩)
        · exact Or.inl (Or.inl h)
        · rcases List.mem_cons.mp hq with hq | hq
          · subst hq ; exact Or.inl (Or.inr hqk.symm)
          · exact Or.inr ⟨q, hq, hqk⟩

theorem mem_firstOccPaths (k : String) (ps : List (FilePatch J)) :
    k ∈ firstOccPaths ps ↔ ∃ q ∈ ps, q.path = k := by
  unfold firstOccPaths
  rw [mem_foldl_paths]
  simp

theorem firstOccPaths_nodup (ps : List (FilePatch J)) : (firstOccPaths ps).Nodup := by
  have key : ∀ (l : List (FilePatch J)) (acc : List String), acc.Nodup →
      (l.foldl (fun acc p => if p.path ∈ acc then acc else acc ++ [p.path]) acc).Nodup := by
    intro l
    induction l with
    | nil => intro acc h ; exact h
    | cons p rest ih =>
      intro acc h
      simp only [List.foldl_cons]
      apply ih
      by_cases hp : p.path ∈ acc
      · simpa [hp] using h
      · simp [hp, List.nodup_append, h]
  exact key ps [] List.nodup_nil

theorem lookup_none_iff (k : String) :
    ∀ (m : List (String × FilePatch J)), m.lookup k = none ↔ k ∉ m.map Prod.fst := by
  intro m
  induction m with
  | nil => simp
  | cons ab m' ih =>
    obtain ⟨a, b⟩ := ab
    rw [List.lookup_cons]
    by_cases hk : k = a
    · subst hk
      simp
    · have hb : (k == a) = false := by simp [hk]
      simp [hb, hk, ih]

theorem lookup_append_one (k' k : String) (v : FilePatch J) :
    ∀ (m : List (String × FilePatch J)),
      List.lookup k' (m ++ [(k, v)]) =
        (match List.lookup k' m with
          | some w => some w
          | none => if k' = k then some v else none) := by
  intro m
  induction m with
  | nil =>
    simp only [List.nil_append, List.lookup_cons, List.lookup_nil]
    by_cases hk : k' = k
    · subst hk ; simp
    · have hb : (k' == k) = false := by simp [hk]
      simp [hb, hk]
  | cons ab m' ih =>
    obtain ⟨a, b⟩ := ab
    simp only [List.cons_append, List.lookup_cons]
    cases hb : (k' == a)
    · exact ih
    · rfl

theorem lookup_map_update_self (k : String) (v : FilePatch J) :
    ∀ (m : List (String × FilePatch J)), (List.lookup k m).isSome →
      List.lookup k (m.map (fun kv => if kv.1 = k then (k, v) else kv)) = some v := by
  intro m
  induction m with
  | nil => intro h ; simp at h
  | cons ab m' ih =>
    obtain ⟨a, b⟩ := ab
    intro h
    simp only [List.map_cons]
    dsimp only
    by_cases ha : a = k
    · rw [if_pos ha, List.lookup_cons]
      simp
    · rw [if_neg ha, List.lookup_cons]
      have hb : (k == a) = false := by
        simp only [beq_eq_false_iff_ne, ne_eq]
        exact fun hc => ha hc.symm
      rw [hb]
      apply ih
      rw [List.lookup_cons, hb] at h
      exact h

theorem lookup_map_update_ne (k k' : String) (v : FilePatch J) (hne : k' ≠ k) :
    ∀ (m : List (String × FilePatch J)),
      List.lookup k' (m.map (fun kv => if kv.1 = k then (k, v) else kv)) =
        List.lookup k' m := by
  intro m
  induction m with
  | nil => rfl
  | cons ab m' ih =>
    obtain ⟨a, b⟩ := ab
    simp only [List.map_cons]
    dsimp only
    by_cases ha : a = k
    · rw [if_pos ha, List.lookup_cons, List.lookup_cons]
      have hb1 : (k' == k) = false := by simp [hne]
      have hb2 : (k' == a) = false := by rw [ha] ; exact hb1
      rw [hb1, hb2]
      exact ih
    · rw [if_neg ha, List.lookup_cons, List.lookup_cons]
      cases hb : (k' == a)
      · exact ih
      · rfl

theorem mapSet_not_mem (m : List (String × FilePatch J)) (k : String) (v : FilePatch J)
    (h : m.lookup k = none) : mapSet m k v = m ++ [(k, v)] := by
  unfold mapSet
  simp [h]

theorem mapSet_of_mem (m : List (String × FilePatch J)) (k : String) (v : FilePatch J)
    (h : (m.lookup k).isSome) :
    mapSet m k v = m.map (fun kv => if kv.1 = k then (k, v) else kv) := by
  unfold mapSet
  simp [h]

theorem mapSet_fst_of_mem (m : List (String × FilePatch J)) (k : String) (v : FilePatch J)
    (h : (m.lookup k).isSome) :
    (mapSet m k v).map Prod.fst = m.map Prod.fst := by
  rw [mapSet_of_mem m k v h, List.map_map]
  apply List.map_congr_left
  intro kv _
  by_cases hk : kv.1 = k <;> simp [hk]

theorem mergePatches_path (a b c : FilePatch J) (h : mergePatches a b = some c) :
    c.path = a.path := by
  cases a <;> cases b <;>
    first
    | exact Option.noConfusion h
    | (rw [← Option.some.inj h] ; rfl)

theorem foldlM_merge_path :
    ∀ (l : List (FilePatch J)) (p v : FilePatch J),
      l.foldlM mergePatches p = some v → v.path = p.path := by
  intro l
  induction l with
  | nil =>
    intro p v h
    simp only [List.foldlM_nil] at h
    cases h
    rfl
  | cons q l' ih =>
    intro p v h
    rw [List.foldlM_cons] at h
    cases hm : mergePatches p q with
    | none => rw [hm] at h ; simp at h
    | some x =>
      rw [hm] at h
      rw [ih x v h]
      exact mergePatches_path p q x hm

theorem mergeGroup_path (l : List (FilePatch J)) (v : FilePatch J) (k : String)
    (hall : ∀ q ∈ l, q.path = k) (h : mergeGroup l = some v) : v.path = k := by
  cases l with
  | nil => simp [mergeGroup] at h
  | cons q l' =>
    rw [foldlM_merge_path l' q v h]
    exact hall q (by simp)

theorem mergeGroup_append (l B : List (FilePatch J)) (hne : l ≠ []) :
    mergeGroup (l ++ B) = (mergeGroup l).bind (fun c => B.foldlM mergePatches c) := by
  cases l with
  | nil => exact absurd rfl hne
  | cons q l' =>
    show (l' ++ B).foldlM mergePatches q = _
    rw [List.foldlM_append]
    rfl

/-- Splitting a merge around one element. -/
theorem mergeGroup_mid (A B : List (FilePatch J)) (p c : FilePatch J)
    (hA : mergeGroup A = some c) :
    mergeGroup (A ++ p :: B) =
      (mergePatches c p).bind (fun x => B.foldlM mergePatches x) := by
  have hne : A ≠ [] := by
    intro hc
    subst hc
    exact Option.noConfusion hA
  rw [mergeGroup_append A (p :: B) hne, hA]
  rw [Option.some_bind]
  rw [List.foldlM_cons]
  rfl

theorem mapM_eq_none_of_mem {α γ : Type} (l : List α) (f : α → Option γ) (x : α)
    (hx : x ∈ l) (hf : f x = none) : l.mapM f = none := by
  induction l with
  | nil => simp at hx
  | cons a rest ih =>
    rw [List.mapM_cons]
    rcases List.mem_cons.mp hx with h | h
    · subst h
      rw [hf]
      rfl
    · cases hfa : f a
      · rfl
      · rw [ih h]
        rfl

/-- An association list with distinct keys whose every binding agrees with
`g` maps through `g` to its list of values. -/
theorem assoc_mapM_snd :
    ∀ (m : List (String × FilePatch J)) (g : String → Option (FilePatch J)),
      (m.map Prod.fst).Nodup →
      (∀ k v, m.lookup k = some v → g k = some v) →
      (m.map Prod.fst).mapM g = some (m.map Prod.snd) := by
  intro m
  induction m with
  | nil => intro g _ _ ; rfl
  | cons ab m' ih =>
    obtain ⟨a, b⟩ := ab
    intro g hnd hg
    simp only [List.map_cons, List.mapM_cons]
    have hhead : g a = some b := by
      apply hg
      rw [List.lookup_cons]
      simp
    rw [hhead]
    simp only [List.map_cons, List.nodup_cons] at hnd
    have htail : (m'.map Prod.fst).mapM g = some (m'.map Prod.snd) := by
      apply ih g hnd.2
      intro k v hk
      apply hg
      rw [List.lookup_cons]
      have hka : (k == a) = false := by
        simp only [beq_eq_false_iff_ne, ne_eq]
        intro hc
        subst hc
        have hmem : k ∈ m'.map Prod.fst := by
          by_contra hninm
          rw [← lookup_none_iff k m'] at hninm
          rw [hninm] at hk
          exact Option.noConfusion hk
        exact hnd.1 hmem
      rw [hka]
      exact hk
    rw [htail]
    rfl

/-- The loop of `dedupe` computes the reference description: starting from a
map whose bindings are the merges of the already-processed prefix, processing
the remaining patches yields the per-path merges of the whole input, in
first-occurrence order. -/
theorem dedupeGo_spec :
    ∀ (rest pre : List (FilePatch J)) (m : List (String × FilePatch J)),
      m.map Prod.fst = firstOccPaths pre →
      (∀ k v, m.lookup k = some v →
        mergeGroup (pre.filter (fun p => decide (p.path = k))) = some v) →
      (dedupeGo m rest).map (List.map Prod.snd) =
        (firstOccPaths (pre ++ rest)).mapM
          (fun path => mergeGroup ((pre ++ rest).filter (fun p => decide (p.path = path)))) := by
  intro rest
  induction rest with
  | nil =>
    intro pre m h1 h2
    simp only [dedupeGo, List.append_nil]
    rw [← h1]
    rw [assoc_mapM_snd m _ (by rw [h1] ; exact firstOccPaths_nodup pre) h2]
    rfl
  | cons p rest' ih =>
    intro pre m h1 h2
    have hassoc : (pre ++ [p]) ++ rest' = pre ++ p :: rest' := by simp
    cases hl : m.lookup p.path with
    | none =>
      have hnp : p.path ∉ firstOccPaths pre := by
        rw [← h1]
        exact (lookup_none_iff p.path m).mp hl
      have hfilter_pre : pre.filter (fun q => decide (q.path = p.path)) = [] := by
        rw [List.filter_eq_nil_iff]
        intro q hq
        simp only [decide_eq_true_eq]
        intro hqp
        exact hnp ((mem_firstOccPaths p.path pre).mpr ⟨q, hq, hqp⟩)
      have hstep : dedupeGo m (p :: rest') = dedupeGo (m ++ [(p.path, p)]) rest' := by
        conv_lhs => simp only [dedupeGo]
        rw [hl, mapSet_not_mem m p.path p hl]
      rw [hstep]
      have hinv1 : (m ++ [(p.path, p)]).map Prod.fst = firstOccPaths (pre ++ [p]) := by
        rw [List.map_append, h1, firstOccPaths_append_one]
        simp [hnp]
      have hinv2 : ∀ k v, (m ++ [(p.path, p)]).lookup k = some v →
          mergeGroup ((pre ++ [p]).filter (fun q => decide (q.path = k))) = some v := by
        intro k v hk
        rw [lookup_append_one] at hk
        cases hmk : m.lookup k with
        | some w =>
          rw [hmk] at hk
          have hv : w = v := Option.some.inj hk
          subst hv
          have hkp : k ≠ p.path := by
            intro hc
            subst hc
            rw [hl] at hmk
            exact Option.noConfusion hmk
          rw [List.filter_append]
          have hone : [p].filter (fun q => decide (q.path = k)) = [] := by
            simp only [List.filter_cons, List.filter_nil]
            rw [if_neg (by simp ; exact fun hc => hkp hc.symm)]
          rw [hone, List.append_nil]
          exact h2 k w hmk
        | none =>
          rw [hmk] at hk
          by_cases hkp : k = p.path
          · subst hkp
            rw [if_pos rfl] at hk
            have hv : p = v := Option.some.inj hk
            subst hv
            rw [List.filter_append, hfilter_pre, List.nil_append]
            simp [mergeGroup, List.filter_cons]
          · rw [if_neg hkp] at hk
            exact Option.noConfusion hk
      have hgoal := ih (pre ++ [p]) (m ++ [(p.path, p)]) hinv1 hinv2
      rw [hassoc] at hgoal
      exact hgoal
    | some current =>
      have hcur := h2 p.path current hl
      have hsome : (m.lookup p.path).isSome := by rw [hl] ; rfl
      have hcp : current.path = p.path := by
        apply mergeGroup_path _ current p.path ?_ hcur
        intro q hq
        have := List.mem_filter.mp hq
        simpa using this.2
      have hpmem : p.path ∈ firstOccPaths pre := by
        by_contra hc
        rw [← h1] at hc
        rw [← lookup_none_iff p.path m] at hc
        rw [hl] at hc
        exact Option.noConfusion hc
      cases hm : mergePatches current p with
      | none =>
        have hstep : dedupeGo m (p :: rest') = none := by
          conv_lhs => simp only [dedupeGo]
          rw [hl]
          show (match mergePatches current p with
            | some merged => dedupeGo (mapSet m current.path merged) rest'
            | none => none) = none
          rw [hm]
        rw [hstep]
        have hsplit : (pre ++ p :: rest').filter (fun q => decide (q.path = p.path)) =
            pre.filter (fun q => decide (q.path = p.path)) ++
              p :: rest'.filter (fun q => decide (q.path = p.path)) := by
          rw [List.filter_append, List.filter_cons]
          rw [if_pos (by simp)]
        have hfail : mergeGroup ((pre ++ p :: rest').filter
            (fun q => decide (q.path = p.path))) = none := by
          rw [hsplit, mergeGroup_mid _ _ p current hcur, hm]
          rfl
        have hpmem' : p.path ∈ firstOccPaths (pre ++ p :: rest') := by
          rw [mem_firstOccPaths]
          exact ⟨p, by simp, rfl⟩
        rw [mapM_eq_none_of_mem _ _ p.path hpmem' hfail]
        rfl
      | some merged =>
        have hstep : dedupeGo m (p :: rest') = dedupeGo (mapSet m p.path merged) rest' := by
          conv_lhs => simp only [dedupeGo]
          rw [hl]
          show (match mergePatches current p with
            | some merged => dedupeGo (mapSet m current.path merged) rest'
            | none => none) = _
          rw [hm, hcp]
        rw [hstep]
        have hinv1 : (mapSet m p.path merged).map Prod.fst =
            firstOccPaths (pre ++ [p]) := by
          rw [mapSet_fst_of_mem m p.path merged hsome, h1, firstOccPaths_append_one]
          simp [hpmem]
        have hinv2 : ∀ k v, (mapSet m p.path merged).lookup k = some v →
            mergeGroup ((pre ++ [p]).filter (fun q => decide (q.path = k))) = some v := by
          intro k v hk
          rw [mapSet_of_mem m p.path merged hsome] at hk
          by_cases hkp : k = p.path
          · subst hkp
            rw [lookup_map_update_self p.path merged m hsome] at hk
            have hv : merged = v := Option.some.inj hk
            subst hv
            rw [List.filter_append]
            have hone : [p].filter (fun q => decide (q.path = p.path)) = [p] := by
              simp [List.filter_cons]
            rw [hone]
            rw [show pre.filter (fun q => decide (q.path = p.path)) ++ [p] =
              pre.filter (fun q => decide (q.path = p.path)) ++ p :: [] from rfl]
            rw [mergeGroup_mid _ _ p current hcur, hm]
            rfl
          · rw [lookup_map_update_ne p.path k merged hkp m] at hk
            rw [List.filter_append]
            have hone : [p].filter (fun q => decide (q.path = k)) = [] := by
              simp only [List.filter_cons, List.filter_nil]
              rw [if_neg (by simp ; exact fun hc => hkp hc.symm)]
            rw [hone, List.append_nil]
            exact h2 k v hk
        have hgoal := ih (pre ++ [p]) (mapSet m p.path merged) hinv1 hinv2
        rw [hassoc] at hgoal
        exact hgoal

end DedupeSpec

set_option maxRecDepth 40000 in
/-- C9 counterexample: merging two text patches on the same path keeps the
timestamp of the *last* patch in input order (here 2), not the earliest (1)
as claimed. -/
theorem c9_dedupe_counterexample :
    dedupe (J := Unit) [.textPatch ("/a") 1 [.insertAt 0 ("p".data)],
        .textPatch ("/a") 2 [.deleteAt 3 1]] =
      some [.textPatch ("/a") 2 [.insertAt 0 ("p".data), .deleteAt 3 1]] ∧
    (2 : Nat) ≠ 1 := by
  refine ⟨by decide, by decide⟩

/-- C9 amended: the dedupe pre-pass merges same-kind patches sharing a path
into one patch per path, in first-occurrence order: JSON op arrays are
concatenated in input order, the last text-set content wins, text-patch
operation lists are concatenated in input order and the merged patch keeps
the timestamp of the **last** merged patch; same-path patches of different
kinds make the whole pre-pass throw. -/
theorem c9_dedupe_merges_per_path {J : Type} (patches : List (FilePatch J)) :
    dedupe patches = dedupeSpec patches := by
  unfold dedupe dedupeSpec
  have h := dedupeGo_spec patches [] []
  simp only [List.nil_append] at h
  exact h rfl (fun k v hk => Option.noConfusion hk)


end RealtimeSpec
